import Mathlib

/-!
Table metadata model of node-cartodb-query-tables

A shallow embedding of `lib/models/query_metadata.js`: the class `QueryMetadata`
with `getKey`, `getCacheChannel`, `getLastUpdatedAt` and `getTables`, the helpers
`shortHashKey`, `filterTablesWithUpdatedAt`, `filterAnalysisTables` and the regular
expression `analysisTableRegex`.

The built-ins the file relies on are modelled next to the code that uses them:
JavaScript values and truthiness, string comparison by UTF-16 code units,
`Array.prototype.sort`, ordinary objects used as dictionaries (own properties, the
prototype slot, `Object.keys` order), `Math.max`, and `crypto.createHash('sha256')`
with a base64 digest.
-/

/-! ## JavaScript values -/

/-- The numbers the model needs: `NaN`, `-Infinity` (what `Math.max()` returns for no
argument) and the integers (epoch milliseconds are integral). -/
inductive JSNumber where
  | nan
  | negInfinity
  | int (i : Int)
  deriving DecidableEq, Repr

/-- The primitive values a method parameter or a method result ranges over. -/
inductive JSValue where
  | undefined
  | null
  | boolean (b : Bool)
  | number (n : JSNumber)
  | string (s : String)
  deriving DecidableEq, Repr

namespace JSValue

/-- ToBoolean: `undefined`, `null`, `false`, `NaN`, `0` and `''` are falsy. -/
def toBoolean : JSValue → Bool
  | undefined => false
  | null => false
  | boolean b => b
  | number JSNumber.nan => false
  | number JSNumber.negInfinity => true
  | number (JSNumber.int i) => i != 0
  | string s => s != ""

/-- The operator `a || b`: `a` when `a` is truthy, otherwise `b`. -/
def or (a b : JSValue) : JSValue :=
  if a.toBoolean then a else b

/-- A parameter with a default value: the default applies when the argument is
omitted, which is the same as passing `undefined`. -/
def withDefault (arg dflt : JSValue) : JSValue :=
  match arg with
  | undefined => dflt
  | v => v

end JSValue

/-- An error thrown by the JavaScript engine. -/
inductive JSError where
  | typeError (message : String)
  deriving DecidableEq, Repr

deriving instance DecidableEq for Except

/-! ## Strings: UTF-16 code units, comparison, `substring`, `sort` -/

/-- The UTF-16 code units of one character. -/
def utf16Units (c : Char) : List Nat :=
  if c.toNat < 65536 then [c.toNat]
  else [55296 + (c.toNat - 65536) / 1024, 56320 + (c.toNat - 65536) % 1024]

/-- The code units of a string, which is what JavaScript compares and indexes. -/
def codeUnits (s : String) : List Nat :=
  s.data.flatMap utf16Units

/-- Lexicographic `x <= y` on code-unit sequences. -/
def codeUnitsLe : List Nat → List Nat → Bool
  | [], _ => true
  | _ :: _, [] => false
  | a :: as, b :: bs => decide (a < b) || (a == b && codeUnitsLe as bs)

/-- The order `Array.prototype.sort` uses without a comparator on strings: `x` may
stay before `y` unless `y < x` in code-unit order. -/
def jsStringLe (x y : String) : Prop :=
  codeUnitsLe (codeUnits x) (codeUnits y) = true

instance : DecidableRel jsStringLe :=
  fun x y => inferInstanceAs (Decidable (codeUnitsLe (codeUnits x) (codeUnits y) = true))

/-- The call `Array.prototype.sort()` on an array of strings. The order is total and
antisymmetric on code-unit sequences, so every sorting algorithm yields the same
array; insertion sort stands for the engine's. -/
def jsSort (xs : List String) : List String :=
  xs.insertionSort jsStringLe

/-- The call `String.prototype.substring(start, end)` on a string of one-unit characters
(the base64 digest is ASCII): indices are clamped to the length and swapped when
`start > end`. -/
def jsSubstring (s : String) (start stop : Nat) : String :=
  let len := s.data.length
  let a := min start len
  let b := min stop len
  ⟨(s.data.take (max a b)).drop (min a b)⟩

/-- The call `Array.prototype.join(sep)` on an array of strings. -/
def jsJoin (sep : String) : List String → String
  | [] => ""
  | [x] => x
  | x :: y :: rest => x ++ sep ++ jsJoin sep (y :: rest)

/-! ## `crypto.createHash('sha256').update(s).digest('base64')` -/

namespace Sha256

/-- The UTF-8 bytes of one character. -/
def utf8Bytes (c : Char) : List Nat :=
  let n := c.toNat
  if n < 128 then [n]
  else if n < 2048 then [192 + n / 64, 128 + n % 64]
  else if n < 65536 then [224 + n / 4096, 128 + (n / 64) % 64, 128 + n % 64]
  else [240 + n / 262144, 128 + (n / 4096) % 64, 128 + (n / 64) % 64, 128 + n % 64]

/-- The bytes `update(s)` feeds to the hash: the UTF-8 encoding of `s`. -/
def utf8 (s : String) : List Nat :=
  s.data.flatMap utf8Bytes

/-- Addition modulo `2^32`. -/
def add32 (x y : Nat) : Nat := (x + y) % 4294967296

/-- Rotation of a 32-bit word to the right by `n` bits. -/
def rotr (x n : Nat) : Nat :=
  ((x >>> n) ||| (x <<< (32 - n))) % 4294967296

/-- The function `Ch(x, y, z) = (x and y) xor (not x and z)` on 32-bit words. -/
def ch (x y z : Nat) : Nat :=
  (x &&& y) ^^^ ((x ^^^ 4294967295) &&& z)

/-- The function `Maj(x, y, z)`. -/
def maj (x y z : Nat) : Nat :=
  (x &&& y) ^^^ (x &&& z) ^^^ (y &&& z)

/-- The function written with a capital sigma, index 0. -/
def bigSigma0 (x : Nat) : Nat := rotr x 2 ^^^ rotr x 13 ^^^ rotr x 22

/-- The function written with a capital sigma, index 1. -/
def bigSigma1 (x : Nat) : Nat := rotr x 6 ^^^ rotr x 11 ^^^ rotr x 25

/-- The function written with a small sigma, index 0. -/
def smallSigma0 (x : Nat) : Nat := rotr x 7 ^^^ rotr x 18 ^^^ (x >>> 3)

/-- The function written with a small sigma, index 1. -/
def smallSigma1 (x : Nat) : Nat := rotr x 17 ^^^ rotr x 19 ^^^ (x >>> 10)

/-- The 64 round constants. -/
def roundConstants : List Nat :=
  [0x428a2f98, 0x71374491, 0xb5c0fbcf, 0xe9b5dba5, 0x3956c25b, 0x59f111f1, 0x923f82a4, 0xab1c5ed5,
   0xd807aa98, 0x12835b01, 0x243185be, 0x550c7dc3, 0x72be5d74, 0x80deb1fe, 0x9bdc06a7, 0xc19bf174,
   0xe49b69c1, 0xefbe4786, 0x0fc19dc6, 0x240ca1cc, 0x2de92c6f, 0x4a7484aa, 0x5cb0a9dc, 0x76f988da,
   0x983e5152, 0xa831c66d, 0xb00327c8, 0xbf597fc7, 0xc6e00bf3, 0xd5a79147, 0x06ca6351, 0x14292967,
   0x27b70a85, 0x2e1b2138, 0x4d2c6dfc, 0x53380d13, 0x650a7354, 0x766a0abb, 0x81c2c92e, 0x92722c85,
   0xa2bfe8a1, 0xa81a664b, 0xc24b8b70, 0xc76c51a3, 0xd192e819, 0xd6990624, 0xf40e3585, 0x106aa070,
   0x19a4c116, 0x1e376c08, 0x2748774c, 0x34b0bcb5, 0x391c0cb3, 0x4ed8aa4a, 0x5b9cca4f, 0x682e6ff3,
   0x748f82ee, 0x78a5636f, 0x84c87814, 0x8cc70208, 0x90befffa, 0xa4506ceb, 0xbef9a3f7, 0xc67178f2]

/-- The eight working words. -/
structure State where
  a : Nat
  b : Nat
  c : Nat
  d : Nat
  e : Nat
  f : Nat
  g : Nat
  h : Nat
  deriving DecidableEq, Repr

/-- The initial hash value. -/
def initialState : State :=
  ⟨0x6a09e667, 0xbb67ae85, 0x3c6ef372, 0xa54ff53a, 0x510e527f, 0x9b05688c, 0x1f83d9ab, 0x5be0cd19⟩

/-- The padded message: the bytes, `0x80`, zeros up to 56 modulo 64, and the bit
length as a 64-bit big-endian integer. -/
def pad (msg : List Nat) : List Nat :=
  let bits := 8 * msg.length
  msg ++ [128] ++ List.replicate ((119 - msg.length % 64) % 64) 0 ++
    [(bits >>> 56) % 256, (bits >>> 48) % 256, (bits >>> 40) % 256, (bits >>> 32) % 256,
     (bits >>> 24) % 256, (bits >>> 16) % 256, (bits >>> 8) % 256, bits % 256]

/-- Big-endian 32-bit words of a byte sequence (`n` words). -/
def toWords : Nat → List Nat → List Nat
  | 0, _ => []
  | n + 1, b0 :: b1 :: b2 :: b3 :: rest =>
      (b0 * 16777216 + b1 * 65536 + b2 * 256 + b3) :: toWords n rest
  | _ + 1, _ => []

/-- Extends the message schedule by `n` words; `rev` holds the words computed so
far, the most recent first. -/
def extendSchedule : Nat → List Nat → List Nat
  | 0, rev => rev
  | n + 1, rev =>
      let w := add32 (add32 (smallSigma1 (rev.getD 1 0)) (rev.getD 6 0))
                 (add32 (smallSigma0 (rev.getD 14 0)) (rev.getD 15 0))
      extendSchedule n (w :: rev)

/-- The 64-word message schedule of a 16-word block. -/
def schedule (block : List Nat) : List Nat :=
  (extendSchedule 48 block.reverse).reverse

/-- One round of the compression function with constant `k` and schedule word `w`. -/
def round (s : State) (kw : Nat × Nat) : State :=
  let t1 := add32 (add32 (add32 s.h (bigSigma1 s.e)) (add32 (ch s.e s.f s.g) kw.1)) kw.2
  let t2 := add32 (bigSigma0 s.a) (maj s.a s.b s.c)
  ⟨add32 t1 t2, s.a, s.b, s.c, add32 s.d t1, s.e, s.f, s.g⟩

/-- The compression of one 64-byte block into the running hash value. -/
def compress (hash : State) (block : List Nat) : State :=
  let s := (roundConstants.zip (schedule (toWords 16 block))).foldl round hash
  ⟨add32 hash.a s.a, add32 hash.b s.b, add32 hash.c s.c, add32 hash.d s.d,
   add32 hash.e s.e, add32 hash.f s.f, add32 hash.g s.g, add32 hash.h s.h⟩

/-- Processes `n` consecutive 64-byte blocks. -/
def processBlocks : Nat → State → List Nat → State
  | 0, hash, _ => hash
  | n + 1, hash, bytes => processBlocks n (compress hash (bytes.take 64)) (bytes.drop 64)

/-- The four big-endian bytes of a 32-bit word. -/
def wordBytes (w : Nat) : List Nat :=
  [(w / 16777216) % 256, (w / 65536) % 256, (w / 256) % 256, w % 256]

/-- The 32 digest bytes of a hash value. -/
def stateBytes (s : State) : List Nat :=
  wordBytes s.a ++ wordBytes s.b ++ wordBytes s.c ++ wordBytes s.d ++
  wordBytes s.e ++ wordBytes s.f ++ wordBytes s.g ++ wordBytes s.h

/-- SHA-256 of a byte sequence. -/
def digest (msg : List Nat) : List Nat :=
  let padded := pad msg
  stateBytes (processBlocks (padded.length / 64) initialState padded)

end Sha256

namespace Base64

/-- The standard alphabet (not the URL-safe one). -/
def alphabet : List Char :=
  "ABCDEFGHIJKLMNOPQRSTUVWXYZabcdefghijklmnopqrstuvwxyz0123456789+/".data

/-- The character of a 6-bit value. -/
def char (i : Nat) : Char :=
  alphabet.getD (i % 64) 'A'

/-- Standard base64 with `=` padding. -/
def encode : List Nat → List Char
  | [] => []
  | [a] => [char (a / 4), char (a % 4 * 16), '=', '=']
  | [a, b] => [char (a / 4), char (a % 4 * 16 + b / 16), char (b % 16 * 4), '=']
  | a :: b :: c :: rest =>
      char (a / 4) :: char (a % 4 * 16 + b / 16) :: char (b % 16 * 4 + c / 64) :: char (c % 64) ::
        encode rest

end Base64

/-- The chain `crypto.createHash('sha256').update(target).digest('base64')`. -/
def sha256Base64 (target : String) : String :=
  ⟨Base64.encode (Sha256.digest (Sha256.utf8 target))⟩

/-- The function `shortHashKey` of query_metadata.js. -/
def shortHashKey (target : String) : String :=
  jsSubstring (sha256Base64 target) 0 6

/-! ## Table descriptors -/

/-- The `updated_at` property of a descriptor: missing, or holding `undefined`,
`null`, a numeric timestamp (epoch milliseconds, as `Date.now()` gives) or the `Date`
object `new Date(ms)`, which is an Invalid Date when `ms` is out of range. -/
inductive UpdatedAt where
  | absent
  | undefined
  | null
  | number (ms : Int)
  | date (ms : Int)
  deriving DecidableEq, Repr

/-- One row describing a table a query touches. The three names are own string
properties of every descriptor. -/
structure TableDescriptor where
  dbname : String
  schema_name : String
  table_name : String
  updated_at : UpdatedAt
  deriving DecidableEq, Repr

namespace UpdatedAt

/-- The test `table.hasOwnProperty('updated_at')`. -/
def hasOwnProperty : UpdatedAt → Bool
  | absent => false
  | _ => true

/-- The test `table.updated_at !== undefined`; reading a missing property gives
`undefined`. -/
def isNotUndefined : UpdatedAt → Bool
  | absent => false
  | undefined => false
  | _ => true

/-- The test `table.updated_at !== null`. -/
def isNotNull : UpdatedAt → Bool
  | null => false
  | _ => true

/-- The time value of `new Date(ms)` (TimeClip): `ms` itself up to 8.64e15
milliseconds on either side of the epoch, and `NaN`, the time value of an Invalid
Date, beyond. -/
def timeClip (ms : Int) : JSNumber :=
  if -8640000000000000 ≤ ms ∧ ms ≤ 8640000000000000 then JSNumber.int ms else JSNumber.nan

/-- ToNumber of the value read from `table.updated_at`, as `Math.max` applies it:
`undefined` is `NaN`, `null` is `0`, a `Date` is its time value, which is `NaN` for
an Invalid Date. -/
def toNumber : UpdatedAt → JSNumber
  | absent => JSNumber.nan
  | undefined => JSNumber.nan
  | null => JSNumber.int 0
  | number ms => JSNumber.int ms
  | date ms => timeClip ms

end UpdatedAt

/-- The larger of two numbers the way `Math.max` combines them: `NaN` wins. -/
def JSNumber.max : JSNumber → JSNumber → JSNumber
  | JSNumber.nan, _ => JSNumber.nan
  | _, JSNumber.nan => JSNumber.nan
  | JSNumber.negInfinity, y => y
  | x, JSNumber.negInfinity => x
  | JSNumber.int a, JSNumber.int b => JSNumber.int (if a < b then b else a)

/-- The call `Math.max.apply(null, xs)` on already coerced arguments: `-Infinity` for no
argument, `NaN` as soon as one argument is `NaN`. -/
def mathMax (xs : List JSNumber) : JSNumber :=
  xs.foldl JSNumber.max JSNumber.negInfinity

/-! ## The regular expression of analysis tables -/

/-- A pattern element that consumes one code unit. -/
inductive RegexAtom where
  | literal (c : Char)
  | charClass (ranges : List (Char × Char))
  deriving DecidableEq, Repr

/-- Whether the atom accepts the code unit `u`. -/
def RegexAtom.accepts : RegexAtom → Nat → Bool
  | RegexAtom.literal c, u => u == c.toNat
  | RegexAtom.charClass ranges, u => ranges.any fun r => decide (r.1.toNat ≤ u) && decide (u ≤ r.2.toNat)

/-- The class `[a-f0-9]`. -/
def lowerHexClass : RegexAtom :=
  RegexAtom.charClass [('a', 'f'), ('0', '9')]

/-- The pattern `/^analysis_[a-f0-9]{10}_[a-f0-9]{40}$/`, between its anchors. -/
def analysisTableRegex : List RegexAtom :=
  "analysis_".data.map RegexAtom.literal ++ List.replicate 10 lowerHexClass ++
    [RegexAtom.literal '_'] ++ List.replicate 40 lowerHexClass

/-- Matching of a sequence of one-unit atoms anchored with `^` and `$` (no flag, so
`$` is the very end of the input) against the code units of the input. -/
def regexMatch : List RegexAtom → List Nat → Bool
  | [], [] => true
  | a :: as, u :: us => a.accepts u && regexMatch as us
  | _, _ => false

/-- The call `regex.test(s)`. -/
def regexTest (regex : List RegexAtom) (s : String) : Bool :=
  regexMatch regex (codeUnits s)

/-! ## The class `QueryMetadata` -/

/-- The function `filterTablesWithUpdatedAt`. -/
def filterTablesWithUpdatedAt (table : TableDescriptor) : Bool :=
  table.updated_at.hasOwnProperty && table.updated_at.isNotUndefined && table.updated_at.isNotNull

/-- The function `filterAnalysisTables`; `table.hasOwnProperty('table_name')` is
`true` on a descriptor. -/
def filterAnalysisTables (table : TableDescriptor) : Bool :=
  true && !regexTest analysisTableRegex table.table_name

/-- An instance of the class: the two fields the constructor sets. -/
structure QueryMetadata where
  key_namespace : String
  tables : List TableDescriptor
  deriving DecidableEq, Repr

namespace QueryMetadata

/-- The constructor: `new QueryMetadata(tables)`. -/
def new (tables : List TableDescriptor) : QueryMetadata :=
  ⟨"t", tables⟩

/-- The method `getTables(skipNotUpdatedAtTables, skipAnalysisCachedTables)`; an
omitted argument is `undefined`. -/
def getTables (self : QueryMetadata) (skipNotUpdatedAtTables skipAnalysisCachedTables : JSValue) :
    List TableDescriptor :=
  let skipNotUpdatedAtTables := JSValue.or skipNotUpdatedAtTables (JSValue.boolean false)
  let skipAnalysisCachedTables := JSValue.or skipAnalysisCachedTables (JSValue.boolean false)
  let tables :=
    if skipNotUpdatedAtTables.toBoolean then self.tables.filter filterTablesWithUpdatedAt
    else self.tables
  let tables :=
    if skipAnalysisCachedTables.toBoolean then tables.filter filterAnalysisTables else tables
  tables

/-- The method `getKey(skipNotUpdatedAtTables)`. -/
def getKey (self : QueryMetadata) (skipNotUpdatedAtTables : JSValue) : List String :=
  jsSort ((self.getTables skipNotUpdatedAtTables JSValue.undefined).map fun table =>
    self.key_namespace ++ ":" ++
      shortHashKey (table.dbname ++ ":" ++ table.schema_name ++ "." ++ table.table_name))

/-- The method `getLastUpdatedAt(fallbackValue = 0)`. -/
def getLastUpdatedAt (self : QueryMetadata) (fallbackValue : JSValue) : JSValue :=
  let fallbackValue := JSValue.withDefault fallbackValue (JSValue.number (JSNumber.int 0))
  let updatedTimes := self.tables.map fun table => table.updated_at
  JSValue.or
    (if self.tables.length == 0 then fallbackValue
     else JSValue.number (mathMax (updatedTimes.map UpdatedAt.toNumber)))
    fallbackValue

end QueryMetadata

/-! ## The object `grouped` of `getCacheChannel` -/

/-- The value of a decimal digit string, most significant digit first. -/
def digitsValue (cs : List Char) : Nat :=
  cs.foldl (fun acc c => 10 * acc + (c.toNat - 48)) 0

/-- The array index a property key denotes, if any: the canonical decimal string of
an integer below `2^32 - 1` (no sign, no leading zero). -/
def arrayIndex (key : String) : Option Nat :=
  match key.data with
  | [] => none
  | c :: cs =>
      if (c :: cs).all Char.isDigit && (c != '0' || cs.isEmpty) && cs.length < 10
          && decide (digitsValue (c :: cs) < 4294967295) then
        some (digitsValue (c :: cs))
      else none

/-- The ordinary object the reduce starts from as `{}` and fills with one array of
descriptors per database name. `own` lists the own properties in creation order;
`proto` is the prototype slot: `none` for `Object.prototype`, `some a` once an
assignment to `__proto__` has installed the array `a` there. -/
structure GroupedTables where
  own : List (String × List TableDescriptor)
  proto : Option (List TableDescriptor)
  deriving DecidableEq, Repr

namespace GroupedTables

/-- The object literal `{}`. -/
def empty : GroupedTables :=
  ⟨[], none⟩

/-- Whether `key` is an own property. -/
def hasOwn (grouped : GroupedTables) (key : String) : Bool :=
  grouped.own.any fun p => p.1 == key

/-- The call `grouped.hasOwnProperty(key)`. The method is looked up on the object
first: an own property of that name holds an array, and calling it throws. No
array installed as prototype has such a property, so the lookup otherwise ends at
`Object.prototype.hasOwnProperty`. -/
def callHasOwnProperty (grouped : GroupedTables) (key : String) : Except JSError Bool :=
  if grouped.hasOwn "hasOwnProperty" then
    Except.error (JSError.typeError "grouped.hasOwnProperty is not a function")
  else
    Except.ok (grouped.hasOwn key)

/-- The assignment `grouped[key] = []`. An own property is overwritten in place; the
key `__proto__` reaches the setter inherited from `Object.prototype`, which replaces
the prototype and creates no property; every other key finds at most a writable data
property on the prototype chain, so a new own property is created. -/
def assignEmptyArray (grouped : GroupedTables) (key : String) : GroupedTables :=
  if grouped.hasOwn key then
    { grouped with own := grouped.own.map fun p => if p.1 == key then (p.1, []) else p }
  else if key == "__proto__" then
    { grouped with proto := some [] }
  else
    { grouped with own := grouped.own ++ [(key, [])] }

/-- The statement `grouped[key].push(table)`. An own property holds an array, which
grows; `__proto__` reads the prototype through the inherited getter; what any other
key finds on the prototype chain (a method, a number, a descriptor, or nothing) has
no callable `push`. -/
def push (grouped : GroupedTables) (key : String) (table : TableDescriptor) :
    Except JSError GroupedTables :=
  if grouped.hasOwn key then
    Except.ok
      { grouped with own := grouped.own.map fun p => if p.1 == key then (p.1, p.2 ++ [table]) else p }
  else if key == "__proto__" then
    match grouped.proto with
    | some a => Except.ok { grouped with proto := some (a ++ [table]) }
    | none => Except.error (JSError.typeError "grouped[table.dbname].push is not a function")
  else
    Except.error (JSError.typeError "grouped[table.dbname].push is not a function")

/-- The call `Object.keys(grouped)`: the own keys that are array indices in ascending numeric
order, then the other own keys in creation order. -/
def keys (grouped : GroupedTables) : List String :=
  let names := grouped.own.map fun p => p.1
  ((names.filter fun k => (arrayIndex k).isSome).insertionSort
      fun a b => (arrayIndex a).getD 0 ≤ (arrayIndex b).getD 0) ++
    names.filter fun k => !(arrayIndex k).isSome

/-- The read `groupedTables[dbname]` of an own property. -/
def get (grouped : GroupedTables) (key : String) : Except JSError (List TableDescriptor) :=
  match grouped.own.find? fun p => p.1 == key with
  | some p => Except.ok p.2
  | none => Except.error (JSError.typeError "groupedTables[dbname].map is not a function")

end GroupedTables

namespace QueryMetadata

/-- The callback of the reduce in `getCacheChannel`. -/
def groupStep (grouped : GroupedTables) (table : TableDescriptor) : Except JSError GroupedTables :=
  match grouped.callHasOwnProperty table.dbname with
  | Except.error e => Except.error e
  | Except.ok has =>
      let grouped := if !has then grouped.assignEmptyArray table.dbname else grouped
      grouped.push table.dbname table

/-- The reduce of `getCacheChannel`, from the initial value `{}`. -/
def groupTables : GroupedTables → List TableDescriptor → Except JSError GroupedTables
  | grouped, [] => Except.ok grouped
  | grouped, table :: rest =>
      match groupStep grouped table with
      | Except.error e => Except.error e
      | Except.ok next => groupTables next rest

/-- The callback of the outer map in `getCacheChannel`; concatenating the inner
array to a string joins its elements with commas. -/
def renderGroup (groupedTables : GroupedTables) (dbname : String) : Except JSError String :=
  match groupedTables.get dbname with
  | Except.error e => Except.error e
  | Except.ok tables =>
      Except.ok (dbname ++ ":" ++
        jsJoin "," (tables.map fun table => table.schema_name ++ "." ++ table.table_name))

/-- The outer `map` of `getCacheChannel`, which stops at the first error. -/
def renderGroups (groupedTables : GroupedTables) : List String → Except JSError (List String)
  | [] => Except.ok []
  | dbname :: rest =>
      match renderGroup groupedTables dbname with
      | Except.error e => Except.error e
      | Except.ok s =>
          match renderGroups groupedTables rest with
          | Except.error e => Except.error e
          | Except.ok ss => Except.ok (s :: ss)

/-- The method `getCacheChannel(skipNotUpdatedAtTables)`. -/
def getCacheChannel (self : QueryMetadata) (skipNotUpdatedAtTables : JSValue) :
    Except JSError String :=
  match groupTables GroupedTables.empty (self.getTables skipNotUpdatedAtTables JSValue.undefined) with
  | Except.error e => Except.error e
  | Except.ok groupedTables =>
      match renderGroups groupedTables groupedTables.keys with
      | Except.error e => Except.error e
      | Except.ok groups => Except.ok (jsJoin ";;" groups)

end QueryMetadata

/-! ## Reference definitions, following the specification -/

/-- The distinct elements of a list, each at its first occurrence. -/
def firstOccurrences : List String → List String
  | [] => []
  | x :: xs => x :: (firstOccurrences xs).filter fun y => y != x

/-- The cache channel as the specification words it: the distinct database names
in first-seen order, each rendered as `dbname:` followed by the comma-joined
`schema_name.table_name` of its descriptors in list order, joined with `;;`. -/
def cacheChannelReference (tables : List TableDescriptor) : String :=
  jsJoin ";;" ((firstOccurrences (tables.map fun t => t.dbname)).map fun db =>
    db ++ ":" ++ jsJoin ","
      ((tables.filter fun t => t.dbname == db).map fun t => t.schema_name ++ "." ++ t.table_name))

/-- The surrogate key of one descriptor as the specification words it. -/
def surrogateKeyReference (d : TableDescriptor) : String :=
  "t:" ++ ⟨(sha256Base64 (d.dbname ++ ":" ++ d.schema_name ++ "." ++ d.table_name)).data.take 6⟩

/-- A descriptor whose `updated_at` is present and neither `null` nor `undefined`. -/
def hasKnownUpdatedAt (d : TableDescriptor) : Bool :=
  match d.updated_at with
  | UpdatedAt.number _ => true
  | UpdatedAt.date _ => true
  | _ => false

/-- A character of `[0-9a-f]`. -/
def isLowerHex (c : Char) : Bool :=
  ('0' ≤ c && c ≤ '9') || ('a' ≤ c && c ≤ 'f')

/-- The names the specification calls analysis tables: exactly 60 characters, the
literal `analysis_`, 10 lowercase hexadecimal digits, `_`, and 40 lowercase
hexadecimal digits. -/
def isAnalysisTableName (name : String) : Bool :=
  name.data.length == 60 && name.data.take 9 == "analysis_".data &&
    ((name.data.drop 9).take 10).all isLowerHex && (name.data.drop 19).take 1 == ['_'] &&
    (name.data.drop 20).all isLowerHex

/-- A character of the standard base64 alphabet. -/
def isBase64Char (c : Char) : Bool :=
  ('A' ≤ c && c ≤ 'Z') || ('a' ≤ c && c ≤ 'z') || ('0' ≤ c && c ≤ '9') || c == '+' || c == '/'

/-- The same matching read on characters instead of code units; the two agree when
no atom accepts a surrogate (`regexMatch_codeUnits`). -/
def regexMatchChars : List RegexAtom → List Char → Bool
  | [], [] => true
  | a :: as, c :: cs => a.accepts c.toNat && regexMatchChars as cs
  | _, _ => false

/-- An atom that accepts only code units below the surrogate range. -/
def RegexAtom.basic (a : RegexAtom) : Prop :=
  ∀ u, a.accepts u = true → u < 55296

/-- The number `Math.max` sees for a descriptor whose `updated_at` is a timestamp,
a valid date or `null`. -/
def knownTime : UpdatedAt → Int
  | UpdatedAt.number ms => ms
  | UpdatedAt.date ms => ms
  | _ => 0

/-- A database name that behaves as an ordinary dictionary key of the object
`grouped`: not an array index, not `__proto__`, not `hasOwnProperty`. -/
def plainKey (k : String) : Bool :=
  (arrayIndex k).isNone && k != "__proto__" && k != "hasOwnProperty"

/-- What one step of the reduce does to the own properties when the key is plain:
the table joins the array of its database name, created at the end when new. -/
def insertTable (own : List (String × List TableDescriptor)) (t : TableDescriptor) :
    List (String × List TableDescriptor) :=
  if own.any (fun p => p.1 == t.dbname) then
    own.map fun p => if p.1 == t.dbname then (p.1, p.2 ++ [t]) else p
  else own ++ [(t.dbname, [t])]

/-- A database name that the object `grouped` stores as an own property without
breaking its own method lookup: neither `__proto__` nor `hasOwnProperty`. -/
def safeKey (k : String) : Bool :=
  k != "__proto__" && k != "hasOwnProperty"

/-- One group of the cache channel: a database name and the tables of that
database among `tables`, in list order. -/
def renderReferenceGroup (tables : List TableDescriptor) (db : String) : String :=
  db ++ ":" ++ jsJoin ","
    ((tables.filter fun t => t.dbname == db).map fun t => t.schema_name ++ "." ++ t.table_name)

/-! ## The instance in memory -/

/-- An array in memory. The methods handle arrays of descriptors (the stored list
and its filtered copies), of strings (the keys) and of `updated_at` values. -/
inductive JSArray where
  | ofTables (elements : List TableDescriptor)
  | ofStrings (elements : List String)
  | ofUpdatedAt (elements : List UpdatedAt)
  deriving DecidableEq, Repr

/-- The two fields of an instance; `tables` is the reference the constructor
received, an index into the arrays in memory. -/
structure Instance where
  key_namespace : String
  tables : Nat
  deriving DecidableEq, Repr

/-- The memory a method runs in: the arrays allocated so far and the instance. -/
structure World where
  heap : List JSArray
  self : Instance
  deriving DecidableEq, Repr

namespace World

/-- The statement `new QueryMetadata(tables)` in a memory that holds the array
`tables` only: the constructor stores the reference, not a copy. -/
def new (tables : List TableDescriptor) : World :=
  ⟨[JSArray.ofTables tables], ⟨"t", 0⟩⟩

/-- A new array: `filter`, `map` and array literals allocate their result. -/
def alloc (w : World) (a : JSArray) : Nat × World :=
  (w.heap.length, { w with heap := w.heap ++ [a] })

/-- The descriptors of the array at `ref`. -/
def readTables (w : World) (ref : Nat) : List TableDescriptor :=
  match w.heap[ref]? with
  | some (JSArray.ofTables l) => l
  | _ => []

/-- The strings of the array at `ref`. -/
def readStrings (w : World) (ref : Nat) : List String :=
  match w.heap[ref]? with
  | some (JSArray.ofStrings l) => l
  | _ => []

/-- The values of the array at `ref`. -/
def readUpdatedAt (w : World) (ref : Nat) : List UpdatedAt :=
  match w.heap[ref]? with
  | some (JSArray.ofUpdatedAt l) => l
  | _ => []

/-- The call `array.sort()`, which reorders the array at `ref` in place. Strings
are ordered by code units; descriptors all convert to the same string
`[object Object]`, so the stable sort leaves them where they are, and so it is with
the other values the model never sorts. -/
def sortInPlace (w : World) (ref : Nat) : World :=
  match w.heap[ref]? with
  | some (JSArray.ofStrings l) => { w with heap := w.heap.set ref (JSArray.ofStrings (jsSort l)) }
  | _ => w

/-- The method `getTables` in memory: each `filter` allocates, and without filter
the reference returned is the stored one. -/
def getTables (w : World) (skipNotUpdatedAtTables skipAnalysisCachedTables : JSValue) :
    Nat × World :=
  let skipNotUpdatedAtTables := JSValue.or skipNotUpdatedAtTables (JSValue.boolean false)
  let skipAnalysisCachedTables := JSValue.or skipAnalysisCachedTables (JSValue.boolean false)
  let r1 :=
    if skipNotUpdatedAtTables.toBoolean then
      w.alloc (JSArray.ofTables ((w.readTables w.self.tables).filter filterTablesWithUpdatedAt))
    else (w.self.tables, w)
  let r2 :=
    if skipAnalysisCachedTables.toBoolean then
      r1.2.alloc (JSArray.ofTables ((r1.2.readTables r1.1).filter filterAnalysisTables))
    else r1
  r2

/-- The method `getKey` in memory: `map` allocates the array of keys and `sort`
reorders that array in place. -/
def getKey (w : World) (skipNotUpdatedAtTables : JSValue) : Nat × World :=
  let r1 := w.getTables skipNotUpdatedAtTables JSValue.undefined
  let r2 := r1.2.alloc (JSArray.ofStrings ((r1.2.readTables r1.1).map fun table =>
    r1.2.self.key_namespace ++ ":" ++
      shortHashKey (table.dbname ++ ":" ++ table.schema_name ++ "." ++ table.table_name)))
  (r2.1, r2.2.sortInPlace r2.1)

/-- The method `getCacheChannel` in memory: the arrays it pushes to are the ones it
creates inside the object `grouped`, which nothing else refers to. -/
def getCacheChannel (w : World) (skipNotUpdatedAtTables : JSValue) :
    Except JSError String × World :=
  let r1 := w.getTables skipNotUpdatedAtTables JSValue.undefined
  let result :=
    match QueryMetadata.groupTables GroupedTables.empty (r1.2.readTables r1.1) with
    | Except.error e => Except.error e
    | Except.ok groupedTables =>
        match QueryMetadata.renderGroups groupedTables groupedTables.keys with
        | Except.error e => Except.error e
        | Except.ok groups => Except.ok (jsJoin ";;" groups)
  (result, r1.2)

/-- The method `getLastUpdatedAt` in memory: `map` allocates the array of times. -/
def getLastUpdatedAt (w : World) (fallbackValue : JSValue) : JSValue × World :=
  let fallbackValue := JSValue.withDefault fallbackValue (JSValue.number (JSNumber.int 0))
  let r1 := w.alloc (JSArray.ofUpdatedAt
    ((w.readTables w.self.tables).map fun table => table.updated_at))
  (JSValue.or
    (if (r1.2.readTables r1.2.self.tables).length == 0 then fallbackValue
     else JSValue.number (mathMax ((r1.2.readUpdatedAt r1.1).map UpdatedAt.toNumber)))
    fallbackValue, r1.2)

end World

/-- A method call with its arguments. -/
inductive Call where
  | getTables (skipNotUpdatedAtTables skipAnalysisCachedTables : JSValue)
  | getKey (skipNotUpdatedAtTables : JSValue)
  | getCacheChannel (skipNotUpdatedAtTables : JSValue)
  | getLastUpdatedAt (fallbackValue : JSValue)
  deriving DecidableEq, Repr

/-- What the caller sees of a result: the elements of a returned array, or the
value returned. -/
inductive Observation where
  | tables (elements : List TableDescriptor)
  | keys (elements : List String)
  | channel (result : Except JSError String)
  | lastUpdatedAt (value : JSValue)
  deriving DecidableEq, Repr

/-- Runs a call in memory and reads its result. -/
def Call.run : Call → World → Observation × World
  | Call.getTables s1 s2, w =>
      let r := w.getTables s1 s2
      (Observation.tables (r.2.readTables r.1), r.2)
  | Call.getKey skip, w =>
      let r := w.getKey skip
      (Observation.keys (r.2.readStrings r.1), r.2)
  | Call.getCacheChannel skip, w =>
      let r := w.getCacheChannel skip
      (Observation.channel r.1, r.2)
  | Call.getLastUpdatedAt fallbackValue, w =>
      let r := w.getLastUpdatedAt fallbackValue
      (Observation.lastUpdatedAt r.1, r.2)

/-- The same call on the model without memory. -/
def Call.pure : Call → QueryMetadata → Observation
  | Call.getTables s1 s2, m => Observation.tables (m.getTables s1 s2)
  | Call.getKey skip, m => Observation.keys (m.getKey skip)
  | Call.getCacheChannel skip, m => Observation.channel (m.getCacheChannel skip)
  | Call.getLastUpdatedAt fallbackValue, m => Observation.lastUpdatedAt (m.getLastUpdatedAt fallbackValue)

/-- The stored reference points to an array of descriptors, `stored`. -/
def World.Stores (w : World) (stored : List TableDescriptor) : Prop :=
  w.heap[w.self.tables]? = some (JSArray.ofTables stored)

/-! ## The statement splitter -/

/-- Modelled from the spec: the quoting states of the scan of the statement
splitter, which the sources do not include (section 4.1). -/
inductive SplitState where
  | normal
  | inSingleQuote
  | inDoubleQuote
  | inDollarQuote (delimiter : List Char)
  deriving DecidableEq, Repr

namespace Splitter

/-- Modelled from the spec: the white space the splitter trims, taken as the
characters `String.prototype.trim` removes, white space and line terminators. -/
def isWhiteSpace (c : Char) : Bool :=
  [9, 10, 11, 12, 13, 32, 160, 5760, 8232, 8233, 8239, 8287, 12288, 65279].contains c.toNat ||
    (decide (8192 ≤ c.toNat) && decide (c.toNat ≤ 8202))

/-- Modelled from the spec: the buffer of the splitter without its leading and
trailing white space. -/
def trim (cs : List Char) : List Char :=
  ((cs.dropWhile isWhiteSpace).reverse.dropWhile isWhiteSpace).reverse

/-- Modelled from the spec: the end of a statement in the splitter; the trimmed
buffer joins the result unless it is empty. -/
def emit (out : List String) (buffer : List Char) : List String :=
  if (trim buffer).isEmpty then out else out ++ [⟨trim buffer⟩]

/-- Modelled from the spec: the opening delimiter `$tag$` that a `$` followed by
`rest` starts in the splitter, if any; the tag runs up to the next `$`. -/
def dollarOpener (rest : List Char) : Option (List Char) :=
  match rest.dropWhile (fun c => c != '$') with
  | [] => none
  | _ :: _ => some ('$' :: rest.takeWhile (fun c => c != '$') ++ ['$'])

/-- Modelled from the spec: the scan of the statement splitter (the function
`getQueryStatements` of `lib/querytables.js`, which the sources do not include),
section 4.1. One left-to-right pass with the states `Normal`, `InSingleQuote`,
`InDoubleQuote` and `InDollarQuote`; every character read goes to the buffer,
except a top-level `;`, which ends the statement. A doubled quote inside a quoted
region is read at once, and so is a dollar delimiter. The tag of a dollar
delimiter is whatever stands before the next `$`: the test `quoted inserts` of the
repository uses the tag `qu;oted`. The first argument bounds the number of steps. -/
def scan : Nat → SplitState → List Char → List String → List Char → Option (List String)
  | 0, _, _, _, _ => none
  | _ + 1, _, buffer, out, [] => some (emit out buffer)
  | fuel + 1, SplitState.normal, buffer, out, c :: cs =>
      if c = '\'' then scan fuel SplitState.inSingleQuote (buffer ++ [c]) out cs
      else if c = '"' then scan fuel SplitState.inDoubleQuote (buffer ++ [c]) out cs
      else if c = '$' then
        match dollarOpener cs with
        | some delimiter =>
            scan fuel (SplitState.inDollarQuote delimiter) (buffer ++ delimiter) out
              (cs.drop (delimiter.length - 1))
        | none => scan fuel SplitState.normal (buffer ++ [c]) out cs
      else if c = ';' then scan fuel SplitState.normal [] (emit out buffer) cs
      else scan fuel SplitState.normal (buffer ++ [c]) out cs
  | fuel + 1, SplitState.inSingleQuote, buffer, out, c :: cs =>
      if c = '\'' then
        match cs with
        | '\'' :: cs2 => scan fuel SplitState.inSingleQuote (buffer ++ ['\'', '\'']) out cs2
        | _ => scan fuel SplitState.normal (buffer ++ [c]) out cs
      else scan fuel SplitState.inSingleQuote (buffer ++ [c]) out cs
  | fuel + 1, SplitState.inDoubleQuote, buffer, out, c :: cs =>
      if c = '"' then
        match cs with
        | '"' :: cs2 => scan fuel SplitState.inDoubleQuote (buffer ++ ['"', '"']) out cs2
        | _ => scan fuel SplitState.normal (buffer ++ [c]) out cs
      else scan fuel SplitState.inDoubleQuote (buffer ++ [c]) out cs
  | fuel + 1, SplitState.inDollarQuote delimiter, buffer, out, c :: cs =>
      if delimiter.isPrefixOf (c :: cs) then
        scan fuel SplitState.normal (buffer ++ delimiter) out (cs.drop (delimiter.length - 1))
      else scan fuel (SplitState.inDollarQuote delimiter) (buffer ++ [c]) out cs

/-- Modelled from the spec: the statement splitter `split(text)` (the function
`getQueryStatements`, absent from the sources): the scan from the state `Normal`
with an empty buffer; one step per character read is enough. -/
def split (text : String) : Option (List String) :=
  scan (text.data.length + 1) SplitState.normal [] [] text.data

/-- The pieces of a text between its `;` characters, in order. -/
def cutAtSemicolons : List Char → List (List Char)
  | [] => [[]]
  | c :: cs =>
      if c = ';' then [] :: cutAtSemicolons cs
      else
        match cutAtSemicolons cs with
        | [] => [[c]]
        | p :: ps => (c :: p) :: ps

/-- The statements of a sequence of pieces: every piece trimmed, the empty ones
dropped. -/
def statementsOf (pieces : List (List Char)) : List String :=
  ((pieces.map trim).filter fun p => !p.isEmpty).map String.mk

/-- The splitter the specification describes for a text without quotes and
dollars: cut at every `;`, trim every piece, drop the empty pieces. -/
def splitReference (text : String) : List String :=
  statementsOf (cutAtSemicolons text.data)

/-- The pieces with `buffer` put before the first one. -/
def prependTo (buffer : List Char) : List (List Char) → List (List Char)
  | [] => [buffer]
  | p :: ps => (buffer ++ p) :: ps

/-- A character of a quoted region: an ordinary character, or the quote written
twice. -/
inductive QuotedChar where
  | char (c : Char)
  | doubledQuote
  deriving DecidableEq, Repr

/-- The text of a character of a region quoted with `quote`. -/
def QuotedChar.render (quote : Char) : QuotedChar → List Char
  | QuotedChar.char c => [c]
  | QuotedChar.doubledQuote => [quote, quote]

/-- A piece of a text made of well-terminated quoted regions: a character outside
quotes, a top-level `;`, a single-quoted string, a double-quoted identifier, or a
dollar-quoted body with its tag. -/
inductive Token where
  | plain (c : Char)
  | semicolon
  | singleQuoted (body : List QuotedChar)
  | doubleQuoted (body : List QuotedChar)
  | dollarQuoted (tag body : List Char)
  deriving DecidableEq, Repr

/-- The text of a token, delimiters included. -/
def Token.render : Token → List Char
  | Token.plain c => [c]
  | Token.semicolon => [';']
  | Token.singleQuoted body => '\'' :: (body.flatMap (QuotedChar.render '\'') ++ ['\''])
  | Token.doubleQuoted body => '"' :: (body.flatMap (QuotedChar.render '"') ++ ['"'])
  | Token.dollarQuoted tag body =>
      '$' :: (tag ++ '$' :: (body ++ '$' :: (tag ++ ['$'])))

/-- The delimiter does not reappear in the body before the closing one. -/
def noEarlyClose (delimiter : List Char) : List Char → Bool
  | [] => true
  | c :: body =>
      !(delimiter.isPrefixOf (c :: (body ++ delimiter))) && noEarlyClose delimiter body

/-- A token whose region is what it looks like: no special character outside
quotes, no lone quote inside a quoted region, no `$` in a tag and no closing
delimiter inside a dollar-quoted body. -/
def Token.wellFormed : Token → Bool
  | Token.plain c => c != '\'' && c != '"' && c != '$' && c != ';'
  | Token.semicolon => true
  | Token.singleQuoted body => body.all fun q => q != QuotedChar.char '\''
  | Token.doubleQuoted body => body.all fun q => q != QuotedChar.char '"'
  | Token.dollarQuoted tag body =>
      (tag.all fun c => c != '$') && noEarlyClose ('$' :: (tag ++ ['$'])) body

/-- The closing quote of `t` would be read as doubled: the next token opens with
the same quote. -/
def Token.clashes : Token → List Token → Bool
  | Token.singleQuoted _, Token.singleQuoted _ :: _ => true
  | Token.doubleQuoted _, Token.doubleQuoted _ :: _ => true
  | _, _ => false

/-- A text made of well-terminated quoted regions. -/
def wellTerminated : List Token → Bool
  | [] => true
  | t :: ts => t.wellFormed && !t.clashes ts && wellTerminated ts

/-- The text of a sequence of tokens. -/
def renderTokens (tokens : List Token) : List Char :=
  tokens.flatMap Token.render

/-- The pieces between the top-level `;` tokens, each the text of its tokens. -/
def piecesOf : List Token → List (List Char)
  | [] => [[]]
  | Token.semicolon :: ts => [] :: piecesOf ts
  | t :: ts => prependTo t.render (piecesOf ts)

/-- The tokens of a text outside quotes. -/
def plainText (text : String) : List Token :=
  text.data.map Token.plain

/-- The text of the test `quoted inserts`, token by token. -/
def quotedInsertsTokens : List Token :=
  plainText "\nINSER INTO " ++
    [Token.doubleQuoted [QuotedChar.char 'm', QuotedChar.char 'y', QuotedChar.char '\'',
      QuotedChar.char '\'', QuotedChar.doubledQuote, QuotedChar.char 't']] ++
    plainText " values (" ++
    [Token.singleQuoted [QuotedChar.doubledQuote], Token.plain ',',
     Token.singleQuoted [QuotedChar.char '"', QuotedChar.char '"', QuotedChar.doubledQuote,
       QuotedChar.char ';', QuotedChar.char ';'],
     Token.plain ')', Token.semicolon] ++
    plainText "\nSELECT " ++
    [Token.dollarQuoted "qu;oted".data " hi ".data, Token.semicolon, Token.plain '\n']

end Splitter

/-! ## Lemmas on the built-ins -/

theorem codeUnitsLe_total : ∀ a b : List Nat, codeUnitsLe a b = true ∨ codeUnitsLe b a = true
  | [], _ => Or.inl (by simp [codeUnitsLe])
  | _ :: _, [] => Or.inr (by simp [codeUnitsLe])
  | a :: as, b :: bs => by
      rcases Nat.lt_trichotomy a b with h | h | h
      · left; simp [codeUnitsLe, h]
      · subst h
        rcases codeUnitsLe_total as bs with h1 | h1
        · left; simp [codeUnitsLe, h1]
        · right; simp [codeUnitsLe, h1]
      · right; simp [codeUnitsLe, h]

theorem codeUnitsLe_trans : ∀ a b c : List Nat,
    codeUnitsLe a b = true → codeUnitsLe b c = true → codeUnitsLe a c = true
  | [], _, _, _, _ => by simp [codeUnitsLe]
  | _ :: _, [], _, h, _ => by simp [codeUnitsLe] at h
  | _ :: _, _ :: _, [], _, h => by simp [codeUnitsLe] at h
  | a :: as, b :: bs, c :: cs, h1, h2 => by
      simp only [codeUnitsLe, Bool.or_eq_true, decide_eq_true_eq, Bool.and_eq_true, beq_iff_eq] at h1 h2 ⊢
      rcases h1 with h1 | ⟨h1, h1r⟩
      · rcases h2 with h2 | ⟨h2, _⟩
        · left; omega
        · left; omega
      · rcases h2 with h2 | ⟨h2, h2r⟩
        · left; omega
        · right; exact ⟨by omega, codeUnitsLe_trans as bs cs h1r h2r⟩

theorem codeUnitsLe_antisymm : ∀ a b : List Nat,
    codeUnitsLe a b = true → codeUnitsLe b a = true → a = b
  | [], [], _, _ => rfl
  | [], _ :: _, _, h => by simp [codeUnitsLe] at h
  | _ :: _, [], h, _ => by simp [codeUnitsLe] at h
  | a :: as, b :: bs, h1, h2 => by
      simp only [codeUnitsLe, Bool.or_eq_true, decide_eq_true_eq, Bool.and_eq_true, beq_iff_eq] at h1 h2
      rcases h1 with h1 | ⟨h1, h1r⟩
      · rcases h2 with h2 | ⟨h2, _⟩ <;> omega
      · rcases h2 with h2 | ⟨_, h2r⟩
        · omega
        · rw [h1, codeUnitsLe_antisymm as bs h1r h2r]

instance jsStringLe_isTotal : IsTotal String jsStringLe :=
  ⟨fun x y => codeUnitsLe_total (codeUnits x) (codeUnits y)⟩

instance jsStringLe_isTrans : IsTrans String jsStringLe :=
  ⟨fun x y z => codeUnitsLe_trans (codeUnits x) (codeUnits y) (codeUnits z)⟩

theorem jsSort_perm (xs : List String) : (jsSort xs).Perm xs :=
  List.perm_insertionSort jsStringLe xs

theorem jsSort_sorted (xs : List String) : (jsSort xs).Sorted jsStringLe :=
  List.sorted_insertionSort jsStringLe xs

theorem jsSubstring_zero (s : String) (n : Nat) : jsSubstring s 0 n = ⟨s.data.take n⟩ := by
  have h : List.take (min n s.data.length) s.data = List.take n s.data := by
    rcases Nat.le_total n s.data.length with h | h
    · rw [Nat.min_eq_left h]
    · rw [Nat.min_eq_right h, List.take_of_length_le (Nat.le_refl _), List.take_of_length_le h]
  have h2 : List.take (min n s.length) s.data = List.take n s.data := h
  simp [jsSubstring, h2]

theorem Sha256.digest_length (msg : List Nat) : (Sha256.digest msg).length = 32 := by
  simp [Sha256.digest, Sha256.stateBytes, Sha256.wordBytes]

theorem Base64.isBase64Char_char (i : Nat) : isBase64Char (Base64.char i) = true := by
  unfold Base64.char
  have h : i % 64 < 64 := Nat.mod_lt _ (by decide)
  generalize i % 64 = j at h
  interval_cases j <;> decide

theorem Base64.encode_take_six (a b c d e f : Nat) (rest : List Nat) :
    ∃ c0 c1 c2 c3 c4 c5 : Nat, (Base64.encode (a :: b :: c :: d :: e :: f :: rest)).take 6 =
      [Base64.char c0, Base64.char c1, Base64.char c2, Base64.char c3, Base64.char c4,
       Base64.char c5] :=
  ⟨a / 4, a % 4 * 16 + b / 16, b % 16 * 4 + c / 64, c % 64, d / 4, d % 4 * 16 + e / 16,
    by simp [Base64.encode]⟩

theorem shortHashKey_shape (target : String) :
    ∃ c0 c1 c2 c3 c4 c5 : Nat, shortHashKey target =
      ⟨[Base64.char c0, Base64.char c1, Base64.char c2, Base64.char c3, Base64.char c4,
        Base64.char c5]⟩ := by
  have hlen := Sha256.digest_length (Sha256.utf8 target)
  unfold shortHashKey sha256Base64
  rw [jsSubstring_zero]
  match hd : Sha256.digest (Sha256.utf8 target), hlen with
  | a :: b :: c :: d :: e :: f :: rest, _ =>
      obtain ⟨c0, c1, c2, c3, c4, c5, h⟩ := Base64.encode_take_six a b c d e f rest
      exact ⟨c0, c1, c2, c3, c4, c5, by simp [h]⟩
  | [], h => simp at h
  | [_], h => simp at h
  | [_, _], h => simp at h
  | [_, _, _], h => simp at h
  | [_, _, _, _], h => simp at h
  | [_, _, _, _, _], h => simp at h

theorem shortHashKey_eq_take (target : String) :
    shortHashKey target = ⟨(sha256Base64 target).data.take 6⟩ :=
  jsSubstring_zero _ _

/-! ## The regular expression and the analysis-table names -/

theorem char_le_iff (a b : Char) : a ≤ b ↔ a.toNat ≤ b.toNat := by
  simp [Char.le_def, UInt32.le_def, Char.toNat, UInt32.toNat, BitVec.le_def]

theorem lowerHexClass_accepts (c : Char) : lowerHexClass.accepts c.toNat = isLowerHex c := by
  have h0 : ('0' : Char).toNat = 48 := rfl
  have h9 : ('9' : Char).toNat = 57 := rfl
  have ha : ('a' : Char).toNat = 97 := rfl
  have hf : ('f' : Char).toNat = 102 := rfl
  rw [Bool.eq_iff_iff]
  simp only [lowerHexClass, RegexAtom.accepts, isLowerHex, List.any_cons, List.any_nil,
    Bool.or_false, Bool.or_eq_true, Bool.and_eq_true, decide_eq_true_eq, char_le_iff, h0, h9, ha, hf]
  omega

theorem char_toNat_inj (c d : Char) : d.toNat = c.toNat ↔ d = c := by
  constructor
  · intro h
    apply Char.ext
    apply UInt32.ext
    simpa [Char.toNat] using h
  · rintro rfl; rfl

theorem literal_accepts (c d : Char) : (RegexAtom.literal c).accepts d.toNat = (d == c) := by
  rw [Bool.eq_iff_iff]
  simp [RegexAtom.accepts, char_toNat_inj]

theorem regexMatch_codeUnits : ∀ (atoms : List RegexAtom) (cs : List Char),
    (∀ a ∈ atoms, a.basic) →
    regexMatch atoms (cs.flatMap utf16Units) = regexMatchChars atoms cs
  | [], [], _ => rfl
  | [], c :: cs, _ => by
      by_cases hc : c.toNat < 65536 <;>
        simp [List.flatMap_cons, utf16Units, hc, regexMatch, regexMatchChars]
  | _ :: _, [], _ => rfl
  | a :: as, c :: cs, h => by
      have ih := regexMatch_codeUnits as cs (fun x hx => h x (List.mem_cons_of_mem _ hx))
      have ha : a.basic := h a (List.mem_cons_self _ _)
      by_cases hc : c.toNat < 65536
      · simp [List.flatMap_cons, utf16Units, hc, regexMatch, regexMatchChars, ih]
      · have h1 : a.accepts (55296 + (c.toNat - 65536) / 1024) = false := by
          cases hacc : a.accepts (55296 + (c.toNat - 65536) / 1024)
          · rfl
          · have := ha _ hacc; omega
        have h2 : a.accepts c.toNat = false := by
          cases hacc : a.accepts c.toNat
          · rfl
          · have := ha _ hacc; omega
        simp [List.flatMap_cons, utf16Units, hc, regexMatch, regexMatchChars, h1, h2]

theorem regexMatchChars_append : ∀ (as bs : List RegexAtom) (cs : List Char),
    regexMatchChars (as ++ bs) cs =
      (regexMatchChars as (cs.take as.length) && regexMatchChars bs (cs.drop as.length))
  | [], bs, cs => by simp [regexMatchChars]
  | a :: as, bs, [] => by simp [regexMatchChars]
  | a :: as, bs, c :: cs => by
      simp [regexMatchChars, regexMatchChars_append as bs cs, Bool.and_assoc]

theorem regexMatchChars_literals : ∀ (lits cs : List Char),
    regexMatchChars (lits.map RegexAtom.literal) cs = (cs == lits)
  | [], [] => rfl
  | [], _ :: _ => rfl
  | _ :: _, [] => rfl
  | l :: lits, c :: cs => by
      simp [regexMatchChars, literal_accepts, regexMatchChars_literals lits cs]

theorem regexMatchChars_replicate : ∀ (n : Nat) (cs : List Char),
    regexMatchChars (List.replicate n lowerHexClass) cs = (cs.length == n && cs.all isLowerHex)
  | 0, [] => rfl
  | 0, _ :: _ => rfl
  | _ + 1, [] => rfl
  | n + 1, c :: cs => by
      simp [List.replicate_succ, regexMatchChars, lowerHexClass_accepts,
        regexMatchChars_replicate n cs]
      rw [Bool.eq_iff_iff]; simp; tauto

theorem literal_basic (c : Char) (h : c.toNat < 55296) : (RegexAtom.literal c).basic := by
  intro u hu
  simp [RegexAtom.accepts] at hu
  omega

theorem lowerHexClass_basic : lowerHexClass.basic := by
  intro u hu
  have ha : ('a' : Char).toNat = 97 := rfl
  have hf : ('f' : Char).toNat = 102 := rfl
  have h0 : ('0' : Char).toNat = 48 := rfl
  have h9 : ('9' : Char).toNat = 57 := rfl
  simp only [lowerHexClass, RegexAtom.accepts, List.any_cons, List.any_nil,
    Bool.or_false, Bool.or_eq_true, Bool.and_eq_true, decide_eq_true_eq, h0, h9, ha, hf] at hu
  omega

theorem analysisTableRegex_basic : ∀ a ∈ analysisTableRegex, a.basic := by
  intro a ha
  simp only [analysisTableRegex, List.mem_append, List.mem_map, List.mem_replicate,
    List.mem_singleton] at ha
  rcases ha with ((⟨c, hc, rfl⟩ | ⟨_, rfl⟩) | rfl) | ⟨_, rfl⟩
  · apply literal_basic
    revert c
    decide
  · exact lowerHexClass_basic
  · exact literal_basic _ (by decide)
  · exact lowerHexClass_basic

theorem regexTest_analysis (name : String) :
    regexTest analysisTableRegex name = isAnalysisTableName name := by
  unfold regexTest codeUnits
  rw [regexMatch_codeUnits _ _ analysisTableRegex_basic]
  unfold analysisTableRegex isAnalysisTableName
  generalize name.data = l
  have hl : [RegexAtom.literal '_'] = List.map RegexAtom.literal ['_'] := rfl
  have n1 : (List.map RegexAtom.literal "analysis_".data).length = 9 := rfl
  have n2 : (List.map RegexAtom.literal "analysis_".data ++
      List.replicate 10 lowerHexClass).length = 19 := rfl
  have n3 : (List.map RegexAtom.literal "analysis_".data ++
      List.replicate 10 lowerHexClass ++ [RegexAtom.literal '_']).length = 20 := rfl
  rw [regexMatchChars_append, regexMatchChars_append, regexMatchChars_append, n1, n2, n3, hl,
    regexMatchChars_literals, regexMatchChars_replicate, regexMatchChars_replicate,
    regexMatchChars_literals]
  simp only [List.take_take, List.drop_take]
  have m1 : min 9 (min 19 20) = 9 := rfl
  have m2 : min 19 20 - 9 = 10 := rfl
  have m3 : 20 - 19 = 1 := rfl
  rw [m1, m2, m3, Bool.eq_iff_iff]
  simp only [Bool.and_eq_true, beq_iff_eq, List.length_take, List.length_drop]
  constructor
  · rintro ⟨⟨⟨h1, _, h2⟩, h3⟩, h4, h5⟩
    exact ⟨⟨⟨⟨by omega, h1⟩, h2⟩, h3⟩, h5⟩
  · rintro ⟨⟨⟨⟨h0, h1⟩, h2⟩, h3⟩, h5⟩
    exact ⟨⟨⟨h1, by omega, h2⟩, h3⟩, by omega, h5⟩

/-! ## Lemmas on the methods -/

theorem JSValue.toBoolean_or_false (v : JSValue) :
    (JSValue.or v (JSValue.boolean false)).toBoolean = v.toBoolean := by
  unfold JSValue.or
  split <;> simp_all [JSValue.toBoolean]

theorem filterTablesWithUpdatedAt_eq (d : TableDescriptor) :
    filterTablesWithUpdatedAt d = hasKnownUpdatedAt d := by
  unfold filterTablesWithUpdatedAt hasKnownUpdatedAt
  cases d.updated_at <;> rfl

theorem filterAnalysisTables_eq (d : TableDescriptor) :
    filterAnalysisTables d = !isAnalysisTableName d.table_name := by
  simp [filterAnalysisTables, regexTest_analysis]

theorem QueryMetadata.getTables_eq (tables : List TableDescriptor) (s1 s2 : JSValue) :
    (QueryMetadata.new tables).getTables s1 s2 =
      (if s2.toBoolean then List.filter (fun d => !isAnalysisTableName d.table_name) else id)
        ((if s1.toBoolean then List.filter hasKnownUpdatedAt else id) tables) := by
  have e1 : filterTablesWithUpdatedAt = hasKnownUpdatedAt := funext filterTablesWithUpdatedAt_eq
  have e2 : filterAnalysisTables = fun d => !isAnalysisTableName d.table_name :=
    funext filterAnalysisTables_eq
  simp only [QueryMetadata.getTables, QueryMetadata.new, JSValue.toBoolean_or_false, e1, e2]
  cases s1.toBoolean <;> cases s2.toBoolean <;> simp

theorem QueryMetadata.getTables_sublist (tables : List TableDescriptor) (s1 s2 : JSValue) :
    ((QueryMetadata.new tables).getTables s1 s2).Sublist tables := by
  rw [QueryMetadata.getTables_eq]
  cases s1.toBoolean <;> cases s2.toBoolean <;>
    simp [(List.filter_sublist _).trans (List.filter_sublist _)]

theorem QueryMetadata.key_eq_reference (d : TableDescriptor) :
    "t" ++ ":" ++ shortHashKey (d.dbname ++ ":" ++ d.schema_name ++ "." ++ d.table_name) =
      surrogateKeyReference d := by
  rw [shortHashKey_eq_take]
  rfl

theorem QueryMetadata.getKey_eq (tables : List TableDescriptor) (skip : JSValue) :
    (QueryMetadata.new tables).getKey skip =
      jsSort (((QueryMetadata.new tables).getTables skip (JSValue.boolean false)).map
        surrogateKeyReference) := by
  have e : (fun table : TableDescriptor => (QueryMetadata.new tables).key_namespace ++ ":" ++
      shortHashKey (table.dbname ++ ":" ++ table.schema_name ++ "." ++ table.table_name)) =
      surrogateKeyReference := funext QueryMetadata.key_eq_reference
  unfold QueryMetadata.getKey
  rw [e, QueryMetadata.getTables_eq, QueryMetadata.getTables_eq]
  rfl

theorem surrogateKeyReference_shape (d : TableDescriptor) :
    ∃ cs : List Char, surrogateKeyReference d = "t:" ++ ⟨cs⟩ ∧ cs.length = 6 ∧
      ∀ c ∈ cs, isBase64Char c = true := by
  obtain ⟨c0, c1, c2, c3, c4, c5, h⟩ :=
    shortHashKey_shape (d.dbname ++ ":" ++ d.schema_name ++ "." ++ d.table_name)
  refine ⟨[Base64.char c0, Base64.char c1, Base64.char c2, Base64.char c3,
      Base64.char c4, Base64.char c5], ?_, rfl, ?_⟩
  rotate_left
  · intro c hc
    simp only [List.mem_cons, List.mem_singleton, List.not_mem_nil, or_false] at hc
    rcases hc with rfl | rfl | rfl | rfl | rfl | rfl <;> exact Base64.isBase64Char_char _
  · rw [← QueryMetadata.key_eq_reference, h]
    rfl

/-! ## Lemmas on the grouping object -/

theorem map_if_of_not_any (own : List (String × List TableDescriptor)) (key : String)
    (f : String × List TableDescriptor → String × List TableDescriptor)
    (h : own.any (fun p => p.1 == key) = false) :
    own.map (fun p => if p.1 == key then f p else p) = own := by
  induction own with
  | nil => rfl
  | cons p ps ih =>
      simp only [List.any_cons, Bool.or_eq_false_iff] at h
      have hp : p.1 ≠ key := by simpa using h.1
      have ih2 := ih h.2
      simp only [List.map_cons, beq_iff_eq, hp, if_false] at ih2 ⊢
      rw [ih2]

theorem groupStep_plain (g : GroupedTables) (t : TableDescriptor)
    (hk : plainKey t.dbname = true) (hg : g.hasOwn "hasOwnProperty" = false) :
    QueryMetadata.groupStep g t = Except.ok ⟨insertTable g.own t, g.proto⟩ := by
  have hproto : (t.dbname == "__proto__") = false := by
    simp [plainKey] at hk
    simpa using hk.1.2
  unfold QueryMetadata.groupStep GroupedTables.callHasOwnProperty
  simp only [hg, Bool.false_eq_true, if_false]
  by_cases hown : g.hasOwn t.dbname = true
  · have hown2 : g.own.any (fun p => p.1 == t.dbname) = true := hown
    simp [hown, GroupedTables.push, insertTable, hown2]
  · have hown1 : g.hasOwn t.dbname = false := by simpa using hown
    have hown2 : g.own.any (fun p => p.1 == t.dbname) = false := hown1
    have hm := map_if_of_not_any g.own t.dbname (fun p => (p.1, p.2 ++ [t])) hown2
    simp only [beq_iff_eq] at hm
    simp [hown1, GroupedTables.assignEmptyArray, GroupedTables.push, GroupedTables.hasOwn,
      insertTable, hown2, hproto, hm]

theorem any_key_map (own : List (String × List TableDescriptor)) (k : String)
    (f : String × List TableDescriptor → String × List TableDescriptor)
    (hf : ∀ p, (f p).1 = p.1) :
    (own.map f).any (fun p => p.1 == k) = own.any (fun p => p.1 == k) := by
  induction own with
  | nil => rfl
  | cons p ps ih => simp only [List.map_cons, List.any_cons, ih, hf]

theorem any_key_insertTable (own : List (String × List TableDescriptor)) (t : TableDescriptor)
    (k : String) :
    (insertTable own t).any (fun p => p.1 == k) =
      (own.any (fun p => p.1 == k) || t.dbname == k) := by
  unfold insertTable
  by_cases h : own.any (fun p => p.1 == t.dbname) = true
  · rw [if_pos h, any_key_map]
    · by_cases hk : t.dbname = k
      · subst hk; simp [h]
      · simp [hk]
    · intro p; split <;> rfl
  · rw [if_neg h]
    simp

theorem groupTables_plain : ∀ (ts : List TableDescriptor) (g : GroupedTables),
    (∀ t ∈ ts, plainKey t.dbname = true) → g.hasOwn "hasOwnProperty" = false →
    QueryMetadata.groupTables g ts = Except.ok ⟨ts.foldl insertTable g.own, g.proto⟩
  | [], g, _, _ => rfl
  | t :: ts, g, hts, hg => by
      have ht : plainKey t.dbname = true := hts t (List.mem_cons_self _ _)
      have hne : (t.dbname == "hasOwnProperty") = false := by
        simp [plainKey] at ht
        simpa using ht.2
      have hg2 : (⟨insertTable g.own t, g.proto⟩ : GroupedTables).hasOwn "hasOwnProperty" =
          false := by
        have hg1 : g.own.any (fun p => p.1 == "hasOwnProperty") = false := hg
        show (insertTable g.own t).any (fun p => p.1 == "hasOwnProperty") = false
        rw [any_key_insertTable, hg1, hne]
        rfl
      unfold QueryMetadata.groupTables
      rw [groupStep_plain g t ht hg]
      exact groupTables_plain ts _ (fun x hx => hts x (List.mem_cons_of_mem _ hx)) hg2

/-- The own properties after the reduce has consumed `ts`, starting from `own`. -/
theorem foldl_insertTable : ∀ (ts : List TableDescriptor)
    (own : List (String × List TableDescriptor)),
    ts.foldl insertTable own =
      own.map (fun p => (p.1, p.2 ++ ts.filter fun t => t.dbname == p.1)) ++
        ((firstOccurrences (ts.map fun t => t.dbname)).filter
          fun k => !own.any fun p => p.1 == k).map
          fun k => (k, ts.filter fun t => t.dbname == k)
  | [], own => by simp [firstOccurrences]
  | t :: ts, own => by
      rw [List.foldl_cons, foldl_insertTable ts (insertTable own t)]
      have hfo : firstOccurrences ((t :: ts).map fun t => t.dbname) =
          t.dbname :: (firstOccurrences (ts.map fun t => t.dbname)).filter
            fun y => y != t.dbname := rfl
      rw [hfo]
      by_cases h : own.any (fun p => p.1 == t.dbname) = true
      · have hins : insertTable own t =
            own.map fun p => if p.1 == t.dbname then (p.1, p.2 ++ [t]) else p := by
          unfold insertTable; rw [if_pos h]
        have hany : ∀ k, (insertTable own t).any (fun p => p.1 == k) =
            own.any (fun p => p.1 == k) := by
          intro k
          rw [any_key_insertTable]
          by_cases hk : t.dbname = k
          · subst hk; simp [h]
          · simp [hk]
        congr 1
        · rw [hins, List.map_map]
          apply List.map_congr_left
          intro p _
          by_cases hp : p.1 = t.dbname
          · simp [hp]
          · have hp2 : ¬ t.dbname = p.1 := fun e => hp e.symm
            simp [hp, hp2]
        · simp only [hany, List.filter_cons, h, Bool.not_true, Bool.false_eq_true, if_false,
            List.filter_filter]
          have hf : ∀ k ∈ firstOccurrences (ts.map fun t => t.dbname),
              ((!own.any fun p => p.1 == k) && (k != t.dbname)) =
                (!own.any fun p => p.1 == k) := by
            intro k _
            by_cases hk : k = t.dbname
            · subst hk; simp [h]
            · simp [hk]
          rw [List.filter_congr hf]
          apply List.map_congr_left
          intro k hk
          have hk2 := (List.mem_filter.mp hk).2
          have hne : ¬ t.dbname = k := by
            intro e
            subst e
            simp [h] at hk2
          simp [hne]
      · have h0 : own.any (fun p => p.1 == t.dbname) = false := Bool.eq_false_iff.mpr h
        have hins : insertTable own t = own ++ [(t.dbname, [t])] := by
          unfold insertTable; rw [if_neg h]
        rw [hins, List.map_append, List.append_assoc]
        congr 1
        · apply List.map_congr_left
          intro p hp
          have hne : ¬ t.dbname = p.1 := by
            intro e
            have : own.any (fun p => p.1 == t.dbname) = true :=
              List.any_eq_true.mpr ⟨p, hp, by simp [e]⟩
            rw [h0] at this
            exact Bool.noConfusion this
          simp [hne]
        · simp only [List.filter_cons, h0, Bool.not_false, if_true, List.map_cons,
            List.map_nil, List.singleton_append, List.filter_filter, List.any_append,
            List.any_cons, List.any_nil, Bool.or_false]
          congr 1
          · simp
          · have hf : ∀ k ∈ firstOccurrences (ts.map fun t => t.dbname),
                (!((own.any fun p => p.1 == k) || (t.dbname == k))) =
                  ((!own.any fun p => p.1 == k) && (k != t.dbname)) := by
              intro k _
              by_cases hk : k = t.dbname
              · subst hk; simp
              · have hk2 : ¬ t.dbname = k := fun e => hk e.symm
                have e1 : (t.dbname == k) = false := by simpa using hk2
                have e2 : (k != t.dbname) = true := by simpa using hk
                rw [e1, e2]; simp
            rw [List.filter_congr hf]
            apply List.map_congr_left
            intro k hk
            have hk2 := (List.mem_filter.mp hk).2
            have hne : ¬ t.dbname = k := by
              intro e
              subst e
              simp at hk2
            simp [hne]

theorem GroupedTables.keys_of_no_index (g : GroupedTables)
    (h : ∀ p ∈ g.own, arrayIndex p.1 = none) : g.keys = g.own.map fun p => p.1 := by
  have h1 : ((g.own.map fun p => p.1).filter fun k => (arrayIndex k).isSome) = [] := by
    rw [List.filter_eq_nil_iff]
    intro k hk
    obtain ⟨p, hp, rfl⟩ := List.mem_map.mp hk
    simp [h p hp]
  have h2 : ((g.own.map fun p => p.1).filter fun k => !(arrayIndex k).isSome) =
      g.own.map fun p => p.1 := by
    rw [List.filter_eq_self]
    intro k hk
    obtain ⟨p, hp, rfl⟩ := List.mem_map.mp hk
    simp [h p hp]
  unfold GroupedTables.keys
  simp only [h1, h2, List.insertionSort, List.nil_append]

theorem GroupedTables.get_of_map (F : String → List TableDescriptor) (proto : Option (List TableDescriptor)) :
    ∀ (L : List String) (k : String), k ∈ L →
      (⟨L.map fun k => (k, F k), proto⟩ : GroupedTables).get k = Except.ok (F k)
  | [], _, h => by simp at h
  | k0 :: L, k, h => by
      by_cases hk : k0 = k
      · subst hk
        simp [GroupedTables.get]
      · have hin : k ∈ L := by
          rcases List.mem_cons.mp h with e | e
          · exact absurd e.symm hk
          · exact e
        have ih := GroupedTables.get_of_map F proto L k hin
        have hb : (k0 == k) = false := by simpa using hk
        simp only [GroupedTables.get, List.map_cons, List.find?_cons, hb] at ih ⊢
        exact ih

theorem QueryMetadata.renderGroups_ok (g : GroupedTables) (F : String → List TableDescriptor) :
    ∀ ks : List String, (∀ k ∈ ks, g.get k = Except.ok (F k)) →
      QueryMetadata.renderGroups g ks = Except.ok (ks.map fun db =>
        db ++ ":" ++ jsJoin "," ((F db).map fun t => t.schema_name ++ "." ++ t.table_name))
  | [], _ => rfl
  | k :: ks, h => by
      have hk := h k (List.mem_cons_self _ _)
      have ih := QueryMetadata.renderGroups_ok g F ks
        (fun x hx => h x (List.mem_cons_of_mem _ hx))
      simp [QueryMetadata.renderGroups, QueryMetadata.renderGroup, hk, ih]

theorem mem_firstOccurrences : ∀ (xs : List String) (x : String),
    x ∈ firstOccurrences xs → x ∈ xs
  | [], _, h => by simp [firstOccurrences] at h
  | y :: ys, x, h => by
      simp only [firstOccurrences, List.mem_cons, List.mem_filter] at h
      rcases h with h | ⟨h, _⟩
      · exact h ▸ List.mem_cons_self _ _
      · exact List.mem_cons_of_mem _ (mem_firstOccurrences ys x h)

/-- On database names that are plain dictionary keys, `getCacheChannel` returns the
reference string of the specification. -/
theorem QueryMetadata.getCacheChannel_eq_reference (tables : List TableDescriptor)
    (skip : JSValue)
    (h : ∀ t ∈ (QueryMetadata.new tables).getTables skip (JSValue.boolean false),
      plainKey t.dbname = true) :
    (QueryMetadata.new tables).getCacheChannel skip =
      Except.ok (cacheChannelReference
        ((QueryMetadata.new tables).getTables skip (JSValue.boolean false))) := by
  have hts : (QueryMetadata.new tables).getTables skip JSValue.undefined =
      (QueryMetadata.new tables).getTables skip (JSValue.boolean false) := by
    rw [QueryMetadata.getTables_eq, QueryMetadata.getTables_eq]; rfl
  unfold QueryMetadata.getCacheChannel
  rw [hts]
  generalize (QueryMetadata.new tables).getTables skip (JSValue.boolean false) = ts at h
  rw [groupTables_plain ts GroupedTables.empty h rfl]
  have hown : ts.foldl insertTable GroupedTables.empty.own =
      (firstOccurrences (ts.map fun t => t.dbname)).map
        fun k => (k, ts.filter fun t => t.dbname == k) := by
    rw [foldl_insertTable]
    simp [GroupedTables.empty]
  rw [hown]
  have hkeys : (⟨(firstOccurrences (ts.map fun t => t.dbname)).map
        fun k => (k, ts.filter fun t => t.dbname == k), GroupedTables.empty.proto⟩ :
        GroupedTables).keys = firstOccurrences (ts.map fun t => t.dbname) := by
    rw [GroupedTables.keys_of_no_index]
    · simp [List.map_map, Function.comp_def]
    · intro p hp
      obtain ⟨k, hk, rfl⟩ := List.mem_map.mp hp
      obtain ⟨t, ht, rfl⟩ := List.mem_map.mp (mem_firstOccurrences _ _ hk)
      have := h t ht
      simp [plainKey] at this
      simpa using this.1.1
  simp only [hkeys]
  rw [QueryMetadata.renderGroups_ok _ (fun k => ts.filter fun t => t.dbname == k) _
    (GroupedTables.get_of_map _ _ _)]
  rfl

/-! ## Surrogate keys -/

/-- C2: for every descriptor list and flag, `getKey` is a permutation of the list
of reference keys (`t:` and the first six base64 characters of the SHA-256 of
`dbname:schema_name.table_name`, raw) of the descriptors of `getTables(flag, false)`,
which is the list after the `updated_at` filter only, one key per descriptor; the
two keys of the unit tests are produced. -/
theorem getKey_perm_reference_keys (tables : List TableDescriptor) (skip : JSValue) :
    ((QueryMetadata.new tables).getKey skip).Perm
        (((QueryMetadata.new tables).getTables skip (JSValue.boolean false)).map
          surrogateKeyReference) ∧
      ((QueryMetadata.new tables).getKey skip).Perm
        ((if skip.toBoolean then tables.filter hasKnownUpdatedAt else tables).map
          surrogateKeyReference) ∧
      (QueryMetadata.new [⟨"db1", "public", "tableone", UpdatedAt.date 12345678⟩]).getKey
          JSValue.undefined = ["t:8ny9He"] ∧
      (QueryMetadata.new [⟨"db1", "\"sch-ema\"", "tableone", UpdatedAt.date 12345678⟩]).getKey
          JSValue.undefined = ["t:oVg75u"] := by
  refine ⟨?_, ?_, by decide!, by decide!⟩
  · rw [QueryMetadata.getKey_eq]
    exact jsSort_perm _
  · rw [QueryMetadata.getKey_eq, QueryMetadata.getTables_eq]
    cases skip.toBoolean <;> exact jsSort_perm _

/-- C3: for every descriptor list and flag, the keys `getKey` returns are in
ascending order of their code units: every key is below or equal to every later
key, so in particular to the one that follows it. -/
theorem getKey_sorted (tables : List TableDescriptor) (skip : JSValue) :
    ((QueryMetadata.new tables).getKey skip).Sorted jsStringLe ∧
      ((QueryMetadata.new tables).getKey skip).Chain' jsStringLe := by
  have h : ((QueryMetadata.new tables).getKey skip).Sorted jsStringLe := jsSort_sorted _
  exact ⟨h, h.chain'⟩

/-- C4: every key `getKey` returns has exactly 8 characters, `t:` followed by 6
characters of the standard base64 alphabet, and there are as many keys as
descriptors surviving the `updated_at` filter. -/
theorem getKey_shape_and_count (tables : List TableDescriptor) (skip : JSValue) :
    (∀ key ∈ (QueryMetadata.new tables).getKey skip,
        key.length = 8 ∧ ∃ cs : List Char, key = "t:" ++ ⟨cs⟩ ∧ cs.length = 6 ∧
          ∀ c ∈ cs, isBase64Char c = true) ∧
      ((QueryMetadata.new tables).getKey skip).length =
        (if skip.toBoolean then tables.filter hasKnownUpdatedAt else tables).length := by
  constructor
  · intro key hkey
    rw [QueryMetadata.getKey_eq] at hkey
    have hmem := (jsSort_perm _).mem_iff.mp hkey
    obtain ⟨d, _, rfl⟩ := List.mem_map.mp hmem
    obtain ⟨cs, hcs, hlen, hall⟩ := surrogateKeyReference_shape d
    refine ⟨?_, cs, hcs, hlen, hall⟩
    rw [hcs]
    show ("t:".data ++ cs).length = 8
    simp [hlen]
  · rw [QueryMetadata.getKey_eq, QueryMetadata.getTables_eq, (jsSort_perm _).length_eq]
    cases skip.toBoolean <;> simp [JSValue.toBoolean]

theorem getKey_shape_and_count_witness :
    "t:8ny9He" ∈ (QueryMetadata.new
        [⟨"db1", "public", "tableone", UpdatedAt.date 12345678⟩]).getKey JSValue.undefined ∧
      ("t:8ny9He".length = 8 ∧ ∃ cs : List Char, "t:8ny9He" = "t:" ++ ⟨cs⟩ ∧ cs.length = 6 ∧
        ∀ c ∈ cs, isBase64Char c = true) :=
  ⟨by decide!,
    (getKey_shape_and_count [⟨"db1", "public", "tableone", UpdatedAt.date 12345678⟩]
      JSValue.undefined).1 "t:8ny9He" (by decide!)⟩

/-! ## Filtering -/

/-- C5: `getTables` applies the `updated_at` filter first (when its flag is truthy:
keep the descriptors whose `updated_at` is present, not `null` and not `undefined`)
and the analysis-table filter second (when its flag is truthy); the result is a
sublist of the stored list, the whole list when both flags are `false` or omitted,
and a present `updated_at` of `0` survives the first filter. -/
theorem getTables_filters_in_order (tables : List TableDescriptor)
    (skipNotUpdatedAtTables skipAnalysisCachedTables : JSValue) :
    (QueryMetadata.new tables).getTables skipNotUpdatedAtTables skipAnalysisCachedTables =
        (if skipAnalysisCachedTables.toBoolean then
            List.filter (fun d => !isAnalysisTableName d.table_name) else id)
          ((if skipNotUpdatedAtTables.toBoolean then List.filter hasKnownUpdatedAt else id)
            tables) ∧
      ((QueryMetadata.new tables).getTables skipNotUpdatedAtTables
        skipAnalysisCachedTables).Sublist tables ∧
      (QueryMetadata.new tables).getTables (JSValue.boolean false) (JSValue.boolean false) =
        tables ∧
      (QueryMetadata.new tables).getTables JSValue.undefined JSValue.undefined = tables ∧
      (∀ db sch name : String, hasKnownUpdatedAt ⟨db, sch, name, UpdatedAt.number 0⟩ = true ∧
        hasKnownUpdatedAt ⟨db, sch, name, UpdatedAt.absent⟩ = false ∧
        hasKnownUpdatedAt ⟨db, sch, name, UpdatedAt.undefined⟩ = false ∧
        hasKnownUpdatedAt ⟨db, sch, name, UpdatedAt.null⟩ = false) := by
  refine ⟨QueryMetadata.getTables_eq _ _ _, QueryMetadata.getTables_sublist _ _ _, ?_, ?_, ?_⟩
  · rw [QueryMetadata.getTables_eq]; rfl
  · rw [QueryMetadata.getTables_eq]; rfl
  · intro db sch name
    exact ⟨rfl, rfl, rfl, rfl⟩

/-- C6: `getTables(false, true)` drops exactly the descriptors whose `table_name` is
the 60-character string `analysis_`, 10 characters of `[0-9a-f]`, `_`, 40 characters
of `[0-9a-f]`, and keeps the others in order: a name with an uppercase digit, a
shorter or longer run, a leading quote or a trailing newline is kept. -/
theorem getTables_drops_analysis_names (tables : List TableDescriptor) :
    (QueryMetadata.new tables).getTables (JSValue.boolean false) (JSValue.boolean true) =
        tables.filter (fun d => !isAnalysisTableName d.table_name) ∧
      ((QueryMetadata.new tables).getTables (JSValue.boolean false)
        (JSValue.boolean true)).Sublist tables ∧
      (QueryMetadata.new
        [⟨"db", "public", "analysis_0123456789_0123456789abcdef0123456789abcdef01234567",
            UpdatedAt.absent⟩,
         ⟨"db", "public", "analysis_012345678A_0123456789abcdef0123456789abcdef01234567",
            UpdatedAt.absent⟩,
         ⟨"db", "public", "analysis_012345678_0123456789abcdef0123456789abcdef01234567",
            UpdatedAt.absent⟩,
         ⟨"db", "public", "analysis_0123456789_0123456789abcdef0123456789abcdef012345678",
            UpdatedAt.absent⟩,
         ⟨"db", "public", "\"analysis_0123456789_0123456789abcdef0123456789abcdef01234567\"",
            UpdatedAt.absent⟩,
         ⟨"db", "public", "analysis_0123456789_0123456789abcdef0123456789abcdef01234567\n",
            UpdatedAt.absent⟩,
         ⟨"db", "public", "tableone", UpdatedAt.absent⟩]).getTables
        (JSValue.boolean false) (JSValue.boolean true) =
        [⟨"db", "public", "analysis_012345678A_0123456789abcdef0123456789abcdef01234567",
            UpdatedAt.absent⟩,
         ⟨"db", "public", "analysis_012345678_0123456789abcdef0123456789abcdef01234567",
            UpdatedAt.absent⟩,
         ⟨"db", "public", "analysis_0123456789_0123456789abcdef0123456789abcdef012345678",
            UpdatedAt.absent⟩,
         ⟨"db", "public", "\"analysis_0123456789_0123456789abcdef0123456789abcdef01234567\"",
            UpdatedAt.absent⟩,
         ⟨"db", "public", "analysis_0123456789_0123456789abcdef0123456789abcdef01234567\n",
            UpdatedAt.absent⟩,
         ⟨"db", "public", "tableone", UpdatedAt.absent⟩] := by
  refine ⟨?_, QueryMetadata.getTables_sublist _ _ _, by decide!⟩
  rw [QueryMetadata.getTables_eq]; rfl

/-! ## Cache channel -/

theorem QueryMetadata.getCacheChannel_of_getTables_nil (tables : List TableDescriptor)
    (skip : JSValue) (h : (QueryMetadata.new tables).getTables skip (JSValue.boolean false) = []) :
    (QueryMetadata.new tables).getCacheChannel skip = Except.ok "" := by
  have h2 : (QueryMetadata.new tables).getTables skip JSValue.undefined = [] := by
    rw [QueryMetadata.getTables_eq] at h ⊢
    exact h
  unfold QueryMetadata.getCacheChannel
  rw [h2]
  rfl

/-- C7: when `getTables(flag, false)` is empty, `getCacheChannel(flag)` is the empty
string; so it is for the empty list without argument, and with a truthy flag for
every list none of whose descriptors has a present, non-null, non-undefined
`updated_at`. -/
theorem getCacheChannel_empty_string (tables : List TableDescriptor) (skip : JSValue) :
    ((QueryMetadata.new tables).getTables skip (JSValue.boolean false) = [] →
        (QueryMetadata.new tables).getCacheChannel skip = Except.ok "") ∧
      (QueryMetadata.new []).getCacheChannel JSValue.undefined = Except.ok "" ∧
      ((∀ d ∈ tables, hasKnownUpdatedAt d = false) →
        (QueryMetadata.new tables).getCacheChannel (JSValue.boolean true) = Except.ok "") := by
  refine ⟨QueryMetadata.getCacheChannel_of_getTables_nil tables skip, rfl, ?_⟩
  intro h
  apply QueryMetadata.getCacheChannel_of_getTables_nil
  rw [QueryMetadata.getTables_eq]
  simpa [JSValue.toBoolean, List.filter_eq_nil_iff] using h

theorem getCacheChannel_empty_string_witness :
    ((QueryMetadata.new
        [⟨"db1", "public", "tableone", UpdatedAt.null⟩,
         ⟨"db1", "public", "tabletwo", UpdatedAt.absent⟩]).getTables (JSValue.boolean true)
          (JSValue.boolean false) = [] ∧
      (QueryMetadata.new
        [⟨"db1", "public", "tableone", UpdatedAt.null⟩,
         ⟨"db1", "public", "tabletwo", UpdatedAt.absent⟩]).getCacheChannel
          (JSValue.boolean true) = Except.ok "") ∧
      (∀ d ∈ [(⟨"db1", "public", "tableone", UpdatedAt.undefined⟩ : TableDescriptor),
              ⟨"db1", "public", "tabletwo", UpdatedAt.absent⟩], hasKnownUpdatedAt d = false) ∧
      (QueryMetadata.new
        [⟨"db1", "public", "tableone", UpdatedAt.undefined⟩,
         ⟨"db1", "public", "tabletwo", UpdatedAt.absent⟩]).getCacheChannel
          (JSValue.boolean true) = Except.ok "" :=
  ⟨⟨by decide, (getCacheChannel_empty_string
      [⟨"db1", "public", "tableone", UpdatedAt.null⟩,
       ⟨"db1", "public", "tabletwo", UpdatedAt.absent⟩] (JSValue.boolean true)).1 (by decide)⟩,
    by decide, (getCacheChannel_empty_string
      [⟨"db1", "public", "tableone", UpdatedAt.undefined⟩,
       ⟨"db1", "public", "tabletwo", UpdatedAt.absent⟩] JSValue.undefined).2.2 (by decide)⟩

/-! ## Last update -/

theorem foldl_max_int : ∀ (ys : List Int) (a : Int),
    ∃ m : Int, (ys.map JSNumber.int).foldl JSNumber.max (JSNumber.int a) = JSNumber.int m ∧
      (m = a ∨ m ∈ ys) ∧ a ≤ m ∧ ∀ y ∈ ys, y ≤ m
  | [], a => ⟨a, rfl, Or.inl rfl, le_refl _, by simp⟩
  | y :: ys, a => by
      obtain ⟨m, hm, hin, hle, hall⟩ := foldl_max_int ys (if a < y then y else a)
      refine ⟨m, ?_, ?_, ?_, ?_⟩
      · simpa [JSNumber.max] using hm
      · rcases hin with h | h
        · by_cases hay : a < y
          · right; simp [h, hay]
          · left; simp [h, hay]
        · right; exact List.mem_cons_of_mem _ h
      · by_cases hay : a < y
        · simp [hay] at hle; omega
        · simpa [hay] using hle
      · intro z hz
        rcases List.mem_cons.mp hz with rfl | hz
        · by_cases hay : a < z
          · simpa [hay] using hle
          · simp [hay] at hle; omega
        · exact hall z hz

theorem mathMax_int : ∀ (ys : List Int), ys ≠ [] →
    ∃ m : Int, mathMax (ys.map JSNumber.int) = JSNumber.int m ∧ m ∈ ys ∧ ∀ y ∈ ys, y ≤ m
  | [], h => absurd rfl h
  | y :: ys, _ => by
      obtain ⟨m, hm, hin, hle, hall⟩ := foldl_max_int ys y
      refine ⟨m, ?_, ?_, ?_⟩
      · simpa [mathMax, JSNumber.max] using hm
      · rcases hin with h | h
        · simp [h]
        · exact List.mem_cons_of_mem _ h
      · intro z hz
        rcases List.mem_cons.mp hz with rfl | hz
        · exact hle
        · exact hall z hz

theorem foldl_max_nan (xs : List JSNumber) :
    xs.foldl JSNumber.max JSNumber.nan = JSNumber.nan := by
  induction xs with
  | nil => rfl
  | cons x xs ih => simpa [JSNumber.max] using ih

theorem JSNumber.max_nan_right (x : JSNumber) : JSNumber.max x JSNumber.nan = JSNumber.nan := by
  cases x <;> rfl

theorem foldl_max_of_mem_nan : ∀ (xs : List JSNumber) (a : JSNumber), JSNumber.nan ∈ xs →
    xs.foldl JSNumber.max a = JSNumber.nan
  | [], _, h => by simp at h
  | x :: xs, a, h => by
      rcases List.mem_cons.mp h with h | h
      · subst h
        simp [JSNumber.max_nan_right, foldl_max_nan]
      · simpa using foldl_max_of_mem_nan xs (JSNumber.max a x) h

theorem QueryMetadata.getLastUpdatedAt_eq (tables : List TableDescriptor) (fallbackValue : JSValue)
    (h : tables ≠ []) :
    (QueryMetadata.new tables).getLastUpdatedAt fallbackValue =
      JSValue.or (JSValue.number (mathMax (tables.map fun d => d.updated_at.toNumber)))
        (JSValue.withDefault fallbackValue (JSValue.number (JSNumber.int 0))) := by
  cases tables with
  | nil => exact absurd rfl h
  | cons d ds => simp [QueryMetadata.getLastUpdatedAt, QueryMetadata.new, List.map_map, Function.comp_def]

/-- C9, as stated, fails on an Invalid Date: with the dates `new Date(1234567891)`
and `new Date(8640000000000001)` every `updated_at` is a date and one has a positive
time value, yet the second date has the time value `NaN`, `Math.max` returns `NaN`
and the method returns the fallback `0`, which is the time value of no date of the
list. -/
theorem getLastUpdatedAt_invalid_date_counterexample :
    (∀ d ∈ [(⟨"db1", "public", "tableone", UpdatedAt.date 1234567891⟩ : TableDescriptor),
        ⟨"db1", "public", "tabletwo", UpdatedAt.date 8640000000000001⟩],
        d.updated_at = UpdatedAt.null ∨ ∃ ms, d.updated_at = UpdatedAt.date ms) ∧
      (∃ d ∈ [(⟨"db1", "public", "tableone", UpdatedAt.date 1234567891⟩ : TableDescriptor),
        ⟨"db1", "public", "tabletwo", UpdatedAt.date 8640000000000001⟩],
        ∃ ms, 0 < ms ∧ d.updated_at = UpdatedAt.date ms) ∧
      (QueryMetadata.new
        [⟨"db1", "public", "tableone", UpdatedAt.date 1234567891⟩,
         ⟨"db1", "public", "tabletwo", UpdatedAt.date 8640000000000001⟩]).getLastUpdatedAt
          JSValue.undefined = JSValue.number (JSNumber.int 0) ∧
      ¬ ∃ latest : Int,
        (QueryMetadata.new
          [⟨"db1", "public", "tableone", UpdatedAt.date 1234567891⟩,
           ⟨"db1", "public", "tabletwo", UpdatedAt.date 8640000000000001⟩]).getLastUpdatedAt
            JSValue.undefined = JSValue.number (JSNumber.int latest) ∧
        ∃ d ∈ [(⟨"db1", "public", "tableone", UpdatedAt.date 1234567891⟩ : TableDescriptor),
          ⟨"db1", "public", "tabletwo", UpdatedAt.date 8640000000000001⟩],
          d.updated_at = UpdatedAt.date latest := by
  have hres : (QueryMetadata.new
      [⟨"db1", "public", "tableone", UpdatedAt.date 1234567891⟩,
       ⟨"db1", "public", "tabletwo", UpdatedAt.date 8640000000000001⟩]).getLastUpdatedAt
        JSValue.undefined = JSValue.number (JSNumber.int 0) := by decide
  refine ⟨?_, ?_, hres, ?_⟩
  · intro d hd
    simp only [List.mem_cons, List.mem_singleton, List.not_mem_nil, or_false] at hd
    rcases hd with rfl | rfl
    · exact Or.inr ⟨_, rfl⟩
    · exact Or.inr ⟨_, rfl⟩
  · exact ⟨⟨"db1", "public", "tableone", UpdatedAt.date 1234567891⟩, by simp, 1234567891,
      by decide, rfl⟩
  · rintro ⟨latest, h1, d, hd, hdl⟩
    rw [hres] at h1
    have h0 : latest = 0 := by
      injection h1 with h1
      injection h1 with h1
      exact h1.symm
    subst h0
    simp only [List.mem_cons, List.mem_singleton, List.not_mem_nil, or_false] at hd
    rcases hd with rfl | rfl
    · exact absurd hdl (by decide)
    · exact absurd hdl (by decide)

/-- C9: when every `updated_at` is `null` or a valid date (a time value within
8.64e15 milliseconds of the epoch) and one date has a positive time value,
`getLastUpdatedAt` returns, for every fallback argument, the time value of the
latest date: a number that is the time value of a date of the list and is reached
by no later date. -/
theorem getLastUpdatedAt_latest_date (tables : List TableDescriptor) (fallbackValue : JSValue)
    (hshape : ∀ d ∈ tables, d.updated_at = UpdatedAt.null ∨
      ∃ ms, d.updated_at = UpdatedAt.date ms ∧ -8640000000000000 ≤ ms ∧ ms ≤ 8640000000000000)
    (hpos : ∃ d ∈ tables, ∃ ms, 0 < ms ∧ d.updated_at = UpdatedAt.date ms) :
    ∃ latest : Int,
      (QueryMetadata.new tables).getLastUpdatedAt fallbackValue =
        JSValue.number (JSNumber.int latest) ∧
      (∃ d ∈ tables, d.updated_at = UpdatedAt.date latest) ∧
      ∀ d ∈ tables, ∀ ms, d.updated_at = UpdatedAt.date ms → ms ≤ latest := by
  obtain ⟨d0, hd0, ms0, hms0, hd0ms⟩ := hpos
  have hne : tables ≠ [] := List.ne_nil_of_mem hd0
  have hmap : (tables.map fun d => d.updated_at.toNumber) =
      (tables.map fun d => knownTime d.updated_at).map JSNumber.int := by
    rw [List.map_map]
    apply List.map_congr_left
    intro d hd
    rcases hshape d hd with h | ⟨ms, h, hlo, hhi⟩
    · simp [h, UpdatedAt.toNumber, knownTime]
    · simp [h, UpdatedAt.toNumber, UpdatedAt.timeClip, knownTime, hlo, hhi]
  obtain ⟨m, hm, hin, hall⟩ := mathMax_int (tables.map fun d => knownTime d.updated_at)
    (by simpa using hne)
  have hm0 : ms0 ≤ m := by
    have := hall (knownTime d0.updated_at) (List.mem_map.mpr ⟨d0, hd0, rfl⟩)
    simpa [hd0ms, knownTime] using this
  have hmpos : 0 < m := lt_of_lt_of_le hms0 hm0
  refine ⟨m, ?_, ?_, ?_⟩
  · rw [QueryMetadata.getLastUpdatedAt_eq _ _ hne, hmap, hm]
    have : (JSValue.number (JSNumber.int m)).toBoolean = true := by
      simp [JSValue.toBoolean]; omega
    simp [JSValue.or, this]
  · obtain ⟨d, hd, hdm⟩ := List.mem_map.mp hin
    refine ⟨d, hd, ?_⟩
    rcases hshape d hd with h | ⟨ms, h, _, _⟩
    · simp [h, knownTime] at hdm; omega
    · simp [h, knownTime] at hdm; rw [h, hdm]
  · intro d hd ms hms
    have := hall (knownTime d.updated_at) (List.mem_map.mpr ⟨d, hd, rfl⟩)
    simpa [hms, knownTime] using this

theorem getLastUpdatedAt_latest_date_witness :
    (∀ d ∈ [(⟨"db1", "public", "tableone", UpdatedAt.date 12345678⟩ : TableDescriptor),
         ⟨"db1", "public", "tabletwo", UpdatedAt.date 1234567891⟩,
         ⟨"db2", "public", "tablethree", UpdatedAt.null⟩],
        d.updated_at = UpdatedAt.null ∨
          ∃ ms, d.updated_at = UpdatedAt.date ms ∧
            -8640000000000000 ≤ ms ∧ ms ≤ 8640000000000000) ∧
    (∃ latest : Int,
      (QueryMetadata.new
        [⟨"db1", "public", "tableone", UpdatedAt.date 12345678⟩,
         ⟨"db1", "public", "tabletwo", UpdatedAt.date 1234567891⟩,
         ⟨"db2", "public", "tablethree", UpdatedAt.null⟩]).getLastUpdatedAt JSValue.undefined =
        JSValue.number (JSNumber.int latest) ∧
      (∃ d ∈ [(⟨"db1", "public", "tableone", UpdatedAt.date 12345678⟩ : TableDescriptor),
         ⟨"db1", "public", "tabletwo", UpdatedAt.date 1234567891⟩,
         ⟨"db2", "public", "tablethree", UpdatedAt.null⟩], d.updated_at = UpdatedAt.date latest) ∧
      ∀ d ∈ [(⟨"db1", "public", "tableone", UpdatedAt.date 12345678⟩ : TableDescriptor),
         ⟨"db1", "public", "tabletwo", UpdatedAt.date 1234567891⟩,
         ⟨"db2", "public", "tablethree", UpdatedAt.null⟩],
        ∀ ms, d.updated_at = UpdatedAt.date ms → ms ≤ latest) ∧
      (QueryMetadata.new
        [⟨"db1", "public", "tableone", UpdatedAt.date 12345678⟩,
         ⟨"db1", "public", "tabletwo", UpdatedAt.date 1234567891⟩,
         ⟨"db2", "public", "tablethree", UpdatedAt.null⟩]).getLastUpdatedAt JSValue.undefined =
        JSValue.number (JSNumber.int 1234567891) :=
  have hshape : ∀ d ∈ [(⟨"db1", "public", "tableone", UpdatedAt.date 12345678⟩ : TableDescriptor),
      ⟨"db1", "public", "tabletwo", UpdatedAt.date 1234567891⟩,
      ⟨"db2", "public", "tablethree", UpdatedAt.null⟩],
      d.updated_at = UpdatedAt.null ∨
        ∃ ms, d.updated_at = UpdatedAt.date ms ∧
          -8640000000000000 ≤ ms ∧ ms ≤ 8640000000000000 := by
    intro d hd
    simp only [List.mem_cons, List.mem_singleton, List.not_mem_nil, or_false] at hd
    rcases hd with rfl | rfl | rfl
    · exact Or.inr ⟨12345678, rfl, by decide, by decide⟩
    · exact Or.inr ⟨1234567891, rfl, by decide, by decide⟩
    · exact Or.inl rfl
  ⟨hshape,
   getLastUpdatedAt_latest_date
    [⟨"db1", "public", "tableone", UpdatedAt.date 12345678⟩,
     ⟨"db1", "public", "tabletwo", UpdatedAt.date 1234567891⟩,
     ⟨"db2", "public", "tablethree", UpdatedAt.null⟩] JSValue.undefined
    hshape
    ⟨⟨"db1", "public", "tabletwo", UpdatedAt.date 1234567891⟩, by simp, 1234567891, by decide, rfl⟩,
   by decide⟩

/-- C10, as stated, fails for the argument `undefined`: the default value `0`
replaces it, so the empty list gives `0` and not the argument. -/
theorem getLastUpdatedAt_undefined_argument_counterexample :
    ¬ ((QueryMetadata.new []).getLastUpdatedAt JSValue.undefined = JSValue.undefined) := by
  decide

/-- C10: a fallback argument that is passed (anything but `undefined`, which is
what an omitted argument is) is returned when the list is empty, when the computed
maximum is `0` or `NaN`, and so when every `updated_at` is `null`; without an
argument the value returned in these cases is `0`. -/
theorem getLastUpdatedAt_fallback (tables : List TableDescriptor) (fallbackValue : JSValue)
    (hpassed : fallbackValue ≠ JSValue.undefined) :
    (QueryMetadata.new []).getLastUpdatedAt fallbackValue = fallbackValue ∧
      ((mathMax (tables.map fun d => d.updated_at.toNumber) = JSNumber.int 0 ∨
          mathMax (tables.map fun d => d.updated_at.toNumber) = JSNumber.nan) →
        (QueryMetadata.new tables).getLastUpdatedAt fallbackValue = fallbackValue) ∧
      ((∀ d ∈ tables, d.updated_at = UpdatedAt.null) →
        (QueryMetadata.new tables).getLastUpdatedAt fallbackValue = fallbackValue) ∧
      (QueryMetadata.new []).getLastUpdatedAt JSValue.undefined =
        JSValue.number (JSNumber.int 0) ∧
      ((mathMax (tables.map fun d => d.updated_at.toNumber) = JSNumber.int 0 ∨
          mathMax (tables.map fun d => d.updated_at.toNumber) = JSNumber.nan) →
        (QueryMetadata.new tables).getLastUpdatedAt JSValue.undefined =
          JSValue.number (JSNumber.int 0)) := by
  have hdef : JSValue.withDefault fallbackValue (JSValue.number (JSNumber.int 0)) =
      fallbackValue := by
    cases fallbackValue <;> first | rfl | exact absurd rfl hpassed
  have hempty : ∀ v : JSValue, (QueryMetadata.new []).getLastUpdatedAt v =
      JSValue.withDefault v (JSValue.number (JSNumber.int 0)) := by
    intro v
    simp [QueryMetadata.getLastUpdatedAt, QueryMetadata.new, JSValue.or]
  have hfalsy : ∀ v : JSValue,
      (mathMax (tables.map fun d => d.updated_at.toNumber) = JSNumber.int 0 ∨
        mathMax (tables.map fun d => d.updated_at.toNumber) = JSNumber.nan) →
      (QueryMetadata.new tables).getLastUpdatedAt v =
        JSValue.withDefault v (JSValue.number (JSNumber.int 0)) := by
    intro v hmax
    by_cases hne : tables = []
    · subst hne; exact hempty v
    · rw [QueryMetadata.getLastUpdatedAt_eq _ _ hne]
      rcases hmax with h | h <;> simp [h, JSValue.or, JSValue.toBoolean]
  refine ⟨?_, ?_, ?_, ?_, ?_⟩
  · rw [hempty, hdef]
  · intro hmax
    rw [hfalsy _ hmax, hdef]
  · intro hnull
    by_cases hne : tables = []
    · subst hne; rw [hempty, hdef]
    · have hmap : (tables.map fun d => d.updated_at.toNumber) =
          (tables.map fun _ => (0 : Int)).map JSNumber.int := by
        rw [List.map_map]
        apply List.map_congr_left
        intro d hd
        simp [hnull d hd, UpdatedAt.toNumber]
      obtain ⟨m, hm, hin, _⟩ := mathMax_int (tables.map fun _ => (0 : Int)) (by simpa using hne)
      have hm0 : m = 0 := by
        obtain ⟨_, _, h⟩ := List.mem_map.mp hin
        exact h.symm
      rw [hfalsy fallbackValue (Or.inl (by rw [hmap, hm, hm0])), hdef]
  · exact hempty _
  · intro hmax
    exact hfalsy _ hmax

theorem getLastUpdatedAt_fallback_witness :
    JSValue.string "FALLBACK" ≠ JSValue.undefined ∧
      (∀ d ∈ [(⟨"db2", "public", "tablethree", UpdatedAt.null⟩ : TableDescriptor)],
        d.updated_at = UpdatedAt.null) ∧
      (QueryMetadata.new [⟨"db2", "public", "tablethree", UpdatedAt.null⟩]).getLastUpdatedAt
        (JSValue.string "FALLBACK") = JSValue.string "FALLBACK" ∧
      (QueryMetadata.new []).getLastUpdatedAt (JSValue.string "FALLBACK") =
        JSValue.string "FALLBACK" :=
  ⟨by decide, by simp,
    (getLastUpdatedAt_fallback [⟨"db2", "public", "tablethree", UpdatedAt.null⟩]
      (JSValue.string "FALLBACK") (by decide)).2.2.1 (by simp),
    (getLastUpdatedAt_fallback [⟨"db2", "public", "tablethree", UpdatedAt.null⟩]
      (JSValue.string "FALLBACK") (by decide)).1⟩

/-- C8: on a timestamp followed by a descriptor without `updated_at`, the reading
of the missing property is `undefined`, `Math.max` turns it into `NaN`, and the
method returns the fallback `0` instead of the timestamp that is present; the same
list with `null` in place of the missing property gives the timestamp. -/
theorem getLastUpdatedAt_absent_poisons_maximum :
    (QueryMetadata.new
        [⟨"db1", "public", "tableone", UpdatedAt.date 1234567891⟩,
         ⟨"db1", "public", "tabletwo", UpdatedAt.absent⟩]).getLastUpdatedAt JSValue.undefined =
        JSValue.number (JSNumber.int 0) ∧
      (QueryMetadata.new
        [⟨"db1", "public", "tableone", UpdatedAt.date 1234567891⟩,
         ⟨"db1", "public", "tabletwo", UpdatedAt.undefined⟩]).getLastUpdatedAt
          (JSValue.string "FALLBACK") = JSValue.string "FALLBACK" ∧
      (QueryMetadata.new
        [⟨"db1", "public", "tableone", UpdatedAt.date 1234567891⟩,
         ⟨"db1", "public", "tabletwo", UpdatedAt.null⟩]).getLastUpdatedAt JSValue.undefined =
        JSValue.number (JSNumber.int 1234567891) := by
  decide

/-- C1: three lists on which `getCacheChannel` leaves the reference string, all
through the plain object that groups the tables. A table of the database
`__proto__` lands in the prototype and is missing from the channel; the database
names `2` and `1`, seen in this order, come out as `1` then `2`; after the database
name `hasOwnProperty` the next table makes the method throw. The list of the unit
test gives the expected channel. -/
theorem getCacheChannel_leaves_reference :
    ((QueryMetadata.new
        [⟨"__proto__", "public", "tableone", UpdatedAt.absent⟩,
         ⟨"db1", "public", "tabletwo", UpdatedAt.absent⟩]).getCacheChannel JSValue.undefined =
        Except.ok "db1:public.tabletwo" ∧
      cacheChannelReference ((QueryMetadata.new
        [⟨"__proto__", "public", "tableone", UpdatedAt.absent⟩,
         ⟨"db1", "public", "tabletwo", UpdatedAt.absent⟩]).getTables JSValue.undefined
          (JSValue.boolean false)) = "__proto__:public.tableone;;db1:public.tabletwo") ∧
      ((QueryMetadata.new
        [⟨"2", "public", "tableone", UpdatedAt.absent⟩,
         ⟨"1", "public", "tabletwo", UpdatedAt.absent⟩]).getCacheChannel JSValue.undefined =
        Except.ok "1:public.tabletwo;;2:public.tableone" ∧
      cacheChannelReference ((QueryMetadata.new
        [⟨"2", "public", "tableone", UpdatedAt.absent⟩,
         ⟨"1", "public", "tabletwo", UpdatedAt.absent⟩]).getTables JSValue.undefined
          (JSValue.boolean false)) = "2:public.tableone;;1:public.tabletwo") ∧
      (QueryMetadata.new
        [⟨"hasOwnProperty", "public", "tableone", UpdatedAt.absent⟩,
         ⟨"db1", "public", "tabletwo", UpdatedAt.absent⟩]).getCacheChannel JSValue.undefined =
        Except.error (JSError.typeError "grouped.hasOwnProperty is not a function") ∧
      (QueryMetadata.new
        [⟨"db1", "public", "tableone", UpdatedAt.absent⟩,
         ⟨"db1", "public", "tabletwo", UpdatedAt.absent⟩,
         ⟨"db2", "public", "tablethree", UpdatedAt.absent⟩]).getCacheChannel JSValue.undefined =
        Except.ok "db1:public.tableone,public.tabletwo;;db2:public.tablethree" := by
  decide!

/-! ## Order independence and composition of the filters -/

theorem char_toNat_valid (c : Char) : c.toNat < 55296 ∨ (57343 < c.toNat ∧ c.toNat < 1114112) := by
  have h := c.valid
  simpa [UInt32.isValidChar, Nat.isValidChar, Char.toNat] using h

theorem utf16Units_ne_nil (c : Char) : utf16Units c ≠ [] := by
  unfold utf16Units
  split <;> simp

theorem codeUnits_injective_aux : ∀ s t : List Char,
    s.flatMap utf16Units = t.flatMap utf16Units → s = t
  | [], [], _ => rfl
  | [], d :: t, h => by
      have hd := utf16Units_ne_nil d
      cases hu : utf16Units d with
      | nil => exact absurd hu hd
      | cons a as => simp [List.flatMap_cons, hu] at h
  | c :: s, [], h => by
      have hc := utf16Units_ne_nil c
      cases hu : utf16Units c with
      | nil => exact absurd hu hc
      | cons a as => simp [List.flatMap_cons, hu] at h
  | c :: s, d :: t, h => by
      have vc := char_toNat_valid c
      have vd := char_toNat_valid d
      simp only [List.flatMap_cons] at h
      by_cases hc : c.toNat < 65536 <;> by_cases hd : d.toNat < 65536
      · simp only [utf16Units, hc, hd, if_true, List.singleton_append, List.cons.injEq] at h
        have e : c = d := (char_toNat_inj d c).mp h.1
        rw [e, codeUnits_injective_aux s t h.2]
      · simp only [utf16Units, hc, hd, if_true, if_false, List.singleton_append, List.cons_append,
          List.nil_append, List.cons.injEq] at h
        omega
      · simp only [utf16Units, hc, hd, if_true, if_false, List.singleton_append, List.cons_append,
          List.nil_append, List.cons.injEq] at h
        omega
      · simp only [utf16Units, hc, hd, if_false, List.cons_append, List.nil_append,
          List.cons.injEq] at h
        obtain ⟨h1, h2, h3⟩ := h
        have e : c = d := (char_toNat_inj d c).mp (by omega)
        rw [e, codeUnits_injective_aux s t h3]

theorem codeUnits_injective (x y : String) (h : codeUnits x = codeUnits y) : x = y := by
  have := codeUnits_injective_aux x.data y.data h
  cases x; cases y
  simp_all

instance jsStringLe_isAntisymm : IsAntisymm String jsStringLe :=
  ⟨fun x y h1 h2 => codeUnits_injective x y (codeUnitsLe_antisymm _ _ h1 h2)⟩

theorem jsSort_eq_of_perm (xs ys : List String) (h : xs.Perm ys) : jsSort xs = jsSort ys :=
  List.eq_of_perm_of_sorted (((jsSort_perm xs).trans h).trans (jsSort_perm ys).symm)
    (jsSort_sorted xs) (jsSort_sorted ys)

/-- C19: for every list, every permutation of it and every flag, the two models
return the same sequence of keys. -/
theorem getKey_of_perm (tables permuted : List TableDescriptor) (skip : JSValue)
    (h : permuted.Perm tables) :
    (QueryMetadata.new permuted).getKey skip = (QueryMetadata.new tables).getKey skip := by
  rw [QueryMetadata.getKey_eq, QueryMetadata.getKey_eq, QueryMetadata.getTables_eq,
    QueryMetadata.getTables_eq]
  apply jsSort_eq_of_perm
  apply List.Perm.map
  cases skip.toBoolean
  · exact h
  · exact h.filter _

theorem getKey_of_perm_witness :
    (QueryMetadata.new
        [⟨"db1", "public", "tabletwo", UpdatedAt.absent⟩,
         ⟨"db1", "public", "tableone", UpdatedAt.absent⟩]).getKey JSValue.undefined =
      (QueryMetadata.new
        [⟨"db1", "public", "tableone", UpdatedAt.absent⟩,
         ⟨"db1", "public", "tabletwo", UpdatedAt.absent⟩]).getKey JSValue.undefined :=
  getKey_of_perm
    [⟨"db1", "public", "tabletwo", UpdatedAt.absent⟩,
     ⟨"db1", "public", "tableone", UpdatedAt.absent⟩]
    [⟨"db1", "public", "tableone", UpdatedAt.absent⟩,
     ⟨"db1", "public", "tabletwo", UpdatedAt.absent⟩] JSValue.undefined (List.Perm.swap _ _ [])

/-- C20: on every list, `getTables(true, true)` equals `getTables(false, true)` on a
model built from `getTables(true, false)`, and equals `getTables(true, false)` on a
model built from `getTables(false, true)`. -/
theorem getTables_filters_commute (tables : List TableDescriptor) :
    (QueryMetadata.new tables).getTables (JSValue.boolean true) (JSValue.boolean true) =
        (QueryMetadata.new ((QueryMetadata.new tables).getTables (JSValue.boolean true)
          (JSValue.boolean false))).getTables (JSValue.boolean false) (JSValue.boolean true) ∧
      (QueryMetadata.new tables).getTables (JSValue.boolean true) (JSValue.boolean true) =
        (QueryMetadata.new ((QueryMetadata.new tables).getTables (JSValue.boolean false)
          (JSValue.boolean true))).getTables (JSValue.boolean true) (JSValue.boolean false) := by
  simp only [QueryMetadata.getTables_eq, JSValue.toBoolean, if_true, Bool.false_eq_true,
    if_false, id, List.filter_filter]
  refine ⟨trivial, ?_⟩
  apply List.filter_congr
  intro d _
  exact Bool.and_comm _ _

/-! ## More on the grouping object -/

theorem groupStep_ok (g : GroupedTables) (t : TableDescriptor)
    (hk : (t.dbname == "hasOwnProperty") = false) (hg : g.hasOwn "hasOwnProperty" = false) :
    ∃ g2, QueryMetadata.groupStep g t = Except.ok g2 ∧ g2.hasOwn "hasOwnProperty" = false := by
  have hg0 : g.own.any (fun p => p.1 == "hasOwnProperty") = false := hg
  have hkeep : ∀ f : String × List TableDescriptor → String × List TableDescriptor,
      (∀ p, (f p).1 = p.1) →
      (g.own.map f).any (fun p => p.1 == "hasOwnProperty") = false := by
    intro f hf
    rw [any_key_map _ _ _ hf]
    exact hg0
  unfold QueryMetadata.groupStep GroupedTables.callHasOwnProperty
  simp only [hg, Bool.false_eq_true, if_false]
  by_cases hown : g.hasOwn t.dbname = true
  · have hown2 : g.own.any (fun p => p.1 == t.dbname) = true := hown
    refine ⟨_, by simp [hown, GroupedTables.push]; rfl, ?_⟩
    exact hkeep _ (by intro p; split <;> rfl)
  · have hown1 : g.hasOwn t.dbname = false := Bool.eq_false_iff.mpr hown
    have hown2 : g.own.any (fun p => p.1 == t.dbname) = false := hown1
    by_cases hp : t.dbname = "__proto__"
    · refine ⟨⟨g.own, some [t]⟩, ?_, hg⟩
      rw [hp] at hown1 hown2
      simp [hp, hown1, GroupedTables.assignEmptyArray, GroupedTables.push, GroupedTables.hasOwn,
        hown2]
    · have hm := map_if_of_not_any g.own t.dbname (fun p => (p.1, p.2 ++ [t])) hown2
      simp only [beq_iff_eq] at hm
      refine ⟨⟨g.own ++ [(t.dbname, [t])], g.proto⟩, ?_, ?_⟩
      · simp [hown1, GroupedTables.assignEmptyArray, GroupedTables.push, GroupedTables.hasOwn,
          hown2, hp, hm]
      · show (g.own ++ [(t.dbname, [t])]).any (fun p => p.1 == "hasOwnProperty") = false
        rw [List.any_append, hg0]
        simp only [List.any_cons, List.any_nil, Bool.or_false, Bool.false_or]
        exact hk

theorem groupTables_ok : ∀ (ts : List TableDescriptor) (g : GroupedTables),
    (∀ t ∈ ts, (t.dbname == "hasOwnProperty") = false) → g.hasOwn "hasOwnProperty" = false →
    ∃ g2, QueryMetadata.groupTables g ts = Except.ok g2
  | [], g, _, _ => ⟨g, rfl⟩
  | t :: ts, g, hts, hg => by
      obtain ⟨g1, h1, hg1⟩ := groupStep_ok g t (hts t (List.mem_cons_self _ _)) hg
      obtain ⟨g2, h2⟩ := groupTables_ok ts g1 (fun x hx => hts x (List.mem_cons_of_mem _ hx)) hg1
      exact ⟨g2, by unfold QueryMetadata.groupTables; rw [h1]; exact h2⟩

theorem GroupedTables.keys_perm (g : GroupedTables) :
    g.keys.Perm (g.own.map fun p => p.1) := by
  unfold GroupedTables.keys
  refine ((List.perm_insertionSort _ _).append_right _).trans ?_
  exact List.filter_append_perm _ _

theorem GroupedTables.get_ok_of_mem (g : GroupedTables) (k : String)
    (h : k ∈ g.own.map fun p => p.1) : ∃ arr, g.get k = Except.ok arr := by
  obtain ⟨p, hp, rfl⟩ := List.mem_map.mp h
  unfold GroupedTables.get
  cases hf : g.own.find? (fun q => q.1 == p.1) with
  | some q => exact ⟨q.2, rfl⟩
  | none =>
      have := List.find?_eq_none.mp hf p hp
      simp at this

theorem QueryMetadata.renderGroups_isOk (g : GroupedTables) :
    ∀ ks : List String, (∀ k ∈ ks, ∃ arr, g.get k = Except.ok arr) →
      ∃ groups, QueryMetadata.renderGroups g ks = Except.ok groups
  | [], _ => ⟨[], rfl⟩
  | k :: ks, h => by
      obtain ⟨arr, ha⟩ := h k (List.mem_cons_self _ _)
      obtain ⟨groups, hg⟩ := QueryMetadata.renderGroups_isOk g ks
        (fun x hx => h x (List.mem_cons_of_mem _ hx))
      exact ⟨(k ++ ":" ++ jsJoin ","
        (arr.map fun table => table.schema_name ++ "." ++ table.table_name)) :: groups,
        by simp [QueryMetadata.renderGroups, QueryMetadata.renderGroup, ha, hg]⟩

/-- Without a database name `hasOwnProperty` among the tables kept, `getCacheChannel`
returns a string. -/
theorem QueryMetadata.getCacheChannel_ok (tables : List TableDescriptor) (skip : JSValue)
    (h : ∀ t ∈ (QueryMetadata.new tables).getTables skip (JSValue.boolean false),
      (t.dbname == "hasOwnProperty") = false) :
    ∃ channel, (QueryMetadata.new tables).getCacheChannel skip = Except.ok channel := by
  have hts : (QueryMetadata.new tables).getTables skip JSValue.undefined =
      (QueryMetadata.new tables).getTables skip (JSValue.boolean false) := by
    rw [QueryMetadata.getTables_eq, QueryMetadata.getTables_eq]; rfl
  obtain ⟨g, hg⟩ := groupTables_ok _ GroupedTables.empty h rfl
  obtain ⟨groups, hgroups⟩ := QueryMetadata.renderGroups_isOk g g.keys
    (fun k hk => GroupedTables.get_ok_of_mem g k ((GroupedTables.keys_perm g).mem_iff.mp hk))
  refine ⟨jsJoin ";;" groups, ?_⟩
  unfold QueryMetadata.getCacheChannel
  rw [hts, hg]
  simp only [hgroups]

theorem groupStep_safe (g : GroupedTables) (t : TableDescriptor)
    (hk : safeKey t.dbname = true) (hg : g.hasOwn "hasOwnProperty" = false) :
    QueryMetadata.groupStep g t = Except.ok ⟨insertTable g.own t, g.proto⟩ := by
  have hproto : (t.dbname == "__proto__") = false := by
    simp [safeKey] at hk
    simpa using hk.1
  unfold QueryMetadata.groupStep GroupedTables.callHasOwnProperty
  simp only [hg, Bool.false_eq_true, if_false]
  by_cases hown : g.hasOwn t.dbname = true
  · have hown2 : g.own.any (fun p => p.1 == t.dbname) = true := hown
    simp [hown, GroupedTables.push, insertTable, hown2]
  · have hown1 : g.hasOwn t.dbname = false := Bool.eq_false_iff.mpr hown
    have hown2 : g.own.any (fun p => p.1 == t.dbname) = false := hown1
    have hm := map_if_of_not_any g.own t.dbname (fun p => (p.1, p.2 ++ [t])) hown2
    simp only [beq_iff_eq] at hm
    simp [hown1, GroupedTables.assignEmptyArray, GroupedTables.push, GroupedTables.hasOwn,
      insertTable, hown2, hproto, hm]

theorem groupTables_safe : ∀ (ts : List TableDescriptor) (g : GroupedTables),
    (∀ t ∈ ts, safeKey t.dbname = true) → g.hasOwn "hasOwnProperty" = false →
    QueryMetadata.groupTables g ts = Except.ok ⟨ts.foldl insertTable g.own, g.proto⟩
  | [], g, _, _ => rfl
  | t :: ts, g, hts, hg => by
      have ht : safeKey t.dbname = true := hts t (List.mem_cons_self _ _)
      have hne : (t.dbname == "hasOwnProperty") = false := by
        simp [safeKey] at ht
        simpa using ht.2
      have hg2 : (⟨insertTable g.own t, g.proto⟩ : GroupedTables).hasOwn "hasOwnProperty" =
          false := by
        have hg1 : g.own.any (fun p => p.1 == "hasOwnProperty") = false := hg
        show (insertTable g.own t).any (fun p => p.1 == "hasOwnProperty") = false
        rw [any_key_insertTable, hg1, hne]
        rfl
      unfold QueryMetadata.groupTables
      rw [groupStep_safe g t ht hg]
      exact groupTables_safe ts _ (fun x hx => hts x (List.mem_cons_of_mem _ hx)) hg2

/-- On database names other than `__proto__` and `hasOwnProperty`, the channel
joins one group per distinct database name, each with all the tables of its
database; the groups come in an order that is a permutation of first-seen order. -/
theorem QueryMetadata.getCacheChannel_groups (tables : List TableDescriptor) (skip : JSValue)
    (h : ∀ t ∈ (QueryMetadata.new tables).getTables skip (JSValue.boolean false),
      safeKey t.dbname = true) :
    ∃ names : List String,
      names.Perm (firstOccurrences
        (((QueryMetadata.new tables).getTables skip (JSValue.boolean false)).map
          fun t => t.dbname)) ∧
      (QueryMetadata.new tables).getCacheChannel skip =
        Except.ok (jsJoin ";;" (names.map (renderReferenceGroup
          ((QueryMetadata.new tables).getTables skip (JSValue.boolean false))))) := by
  have hts : (QueryMetadata.new tables).getTables skip JSValue.undefined =
      (QueryMetadata.new tables).getTables skip (JSValue.boolean false) := by
    rw [QueryMetadata.getTables_eq, QueryMetadata.getTables_eq]; rfl
  unfold QueryMetadata.getCacheChannel
  rw [hts]
  generalize (QueryMetadata.new tables).getTables skip (JSValue.boolean false) = ts at h
  rw [groupTables_safe ts GroupedTables.empty h rfl]
  have hown : ts.foldl insertTable GroupedTables.empty.own =
      (firstOccurrences (ts.map fun t => t.dbname)).map
        fun k => (k, ts.filter fun t => t.dbname == k) := by
    rw [foldl_insertTable]
    simp [GroupedTables.empty]
  rw [hown]
  have hperm := GroupedTables.keys_perm ⟨(firstOccurrences (ts.map fun t => t.dbname)).map
        fun k => (k, ts.filter fun t => t.dbname == k), GroupedTables.empty.proto⟩
  simp only [List.map_map, Function.comp_def, List.map_id'] at hperm
  refine ⟨_, hperm, ?_⟩
  simp only []
  rw [QueryMetadata.renderGroups_ok _ (fun k => ts.filter fun t => t.dbname == k) _
    (fun k hk => GroupedTables.get_of_map _ _ _ k (hperm.mem_iff.mp hk))]
  rfl

/-- On a descriptor listed twice whose database name is neither `__proto__` nor
`hasOwnProperty`, the channel lists the table twice. -/
theorem QueryMetadata.getCacheChannel_twice (d : TableDescriptor) (h : safeKey d.dbname = true) :
    (QueryMetadata.new [d, d]).getCacheChannel JSValue.undefined =
      Except.ok (d.dbname ++ ":" ++ d.schema_name ++ "." ++ d.table_name ++ "," ++
        d.schema_name ++ "." ++ d.table_name) := by
  obtain ⟨names, hperm, hres⟩ := QueryMetadata.getCacheChannel_groups [d, d] JSValue.undefined
    (by
      rw [QueryMetadata.getTables_eq]
      intro t ht
      simp [JSValue.toBoolean] at ht
      rw [ht]; exact h)
  rw [hres, QueryMetadata.getTables_eq]
  have hn : names = [d.dbname] := by
    rw [QueryMetadata.getTables_eq] at hperm
    simp [JSValue.toBoolean, firstOccurrences] at hperm
    exact hperm
  subst hn
  simp [JSValue.toBoolean, renderReferenceGroup, jsJoin, String.append_assoc]

/-- C11: a descriptor of the database `__proto__` listed twice gives the empty
channel, not its table twice, and a descriptor of the database `hasOwnProperty`
listed twice makes the method throw; a descriptor of the database `db1` listed
twice gives its table twice. -/
theorem getCacheChannel_twice_special_names :
    (QueryMetadata.new
        [⟨"__proto__", "public", "tableone", UpdatedAt.absent⟩,
         ⟨"__proto__", "public", "tableone", UpdatedAt.absent⟩]).getCacheChannel
          JSValue.undefined = Except.ok "" ∧
      (QueryMetadata.new
        [⟨"hasOwnProperty", "public", "tableone", UpdatedAt.absent⟩,
         ⟨"hasOwnProperty", "public", "tableone", UpdatedAt.absent⟩]).getCacheChannel
          JSValue.undefined =
        Except.error (JSError.typeError "grouped.hasOwnProperty is not a function") ∧
      (QueryMetadata.new
        [⟨"db1", "public", "tableone", UpdatedAt.absent⟩,
         ⟨"db1", "public", "tableone", UpdatedAt.absent⟩]).getCacheChannel
          JSValue.undefined = Except.ok "db1:public.tableone,public.tableone" := by
  decide!

/-- C12: a table of the database `hasOwnProperty` followed by any other table makes
`getCacheChannel` throw a TypeError, with and without the `updated_at` filter; the
database name `__proto__` does not make it throw, and a single table of the database
`hasOwnProperty` does not either. -/
theorem getCacheChannel_throws_after_hasOwnProperty :
    (QueryMetadata.new
        [⟨"hasOwnProperty", "public", "tableone", UpdatedAt.number 1⟩,
         ⟨"db1", "public", "tabletwo", UpdatedAt.number 2⟩]).getCacheChannel
          JSValue.undefined =
        Except.error (JSError.typeError "grouped.hasOwnProperty is not a function") ∧
      (QueryMetadata.new
        [⟨"hasOwnProperty", "public", "tableone", UpdatedAt.number 1⟩,
         ⟨"db1", "public", "tabletwo", UpdatedAt.number 2⟩]).getCacheChannel
          (JSValue.boolean true) =
        Except.error (JSError.typeError "grouped.hasOwnProperty is not a function") ∧
      (QueryMetadata.new
        [⟨"__proto__", "public", "tableone", UpdatedAt.number 1⟩,
         ⟨"db1", "public", "tabletwo", UpdatedAt.number 2⟩]).getCacheChannel
          JSValue.undefined = Except.ok "db1:public.tabletwo" ∧
      (QueryMetadata.new
        [⟨"hasOwnProperty", "public", "tableone", UpdatedAt.number 1⟩]).getCacheChannel
          JSValue.undefined = Except.ok "hasOwnProperty:public.tableone" := by
  decide!

/-- C18: with two tables of the database `__proto__` around a table of `db2`, the
kept tables have two distinct database names and the channel has the single group
`db2:s.b`; the list of the example gives the two groups `db1:s.a,s.c` and
`db2:s.b`. -/
theorem getCacheChannel_group_missing :
    (QueryMetadata.new
        [⟨"__proto__", "s", "a", UpdatedAt.absent⟩,
         ⟨"db2", "s", "b", UpdatedAt.absent⟩,
         ⟨"__proto__", "s", "c", UpdatedAt.absent⟩]).getCacheChannel JSValue.undefined =
        Except.ok "db2:s.b" ∧
      firstOccurrences (((QueryMetadata.new
        [⟨"__proto__", "s", "a", UpdatedAt.absent⟩,
         ⟨"db2", "s", "b", UpdatedAt.absent⟩,
         ⟨"__proto__", "s", "c", UpdatedAt.absent⟩]).getTables JSValue.undefined
          (JSValue.boolean false)).map fun t => t.dbname) = ["__proto__", "db2"] ∧
      (QueryMetadata.new
        [⟨"db1", "s", "a", UpdatedAt.absent⟩,
         ⟨"db2", "s", "b", UpdatedAt.absent⟩,
         ⟨"db1", "s", "c", UpdatedAt.absent⟩]).getCacheChannel JSValue.undefined =
        Except.ok "db1:s.a,s.c;;db2:s.b" := by
  decide!

/-! ## Descriptors without `updated_at` -/

theorem mathMax_of_mem_nan (xs : List JSNumber) (h : JSNumber.nan ∈ xs) :
    mathMax xs = JSNumber.nan :=
  foldl_max_of_mem_nan xs _ h

/-- C17, as stated, fails for the argument `undefined`: on a descriptor without
`updated_at` the method returns the default `0`, not the argument. -/
theorem getLastUpdatedAt_absent_undefined_counterexample :
    ¬ ((QueryMetadata.new
        [⟨"db1", "public", "tableone", UpdatedAt.absent⟩]).getLastUpdatedAt
          JSValue.undefined = JSValue.undefined) := by
  decide

/-- C17: when one descriptor has no `updated_at` property, or has `undefined`
there, `getLastUpdatedAt` returns the fallback argument that is passed (anything but
`undefined`), whatever the other descriptors carry, and returns `0` when the
argument is `undefined`, which is what an omitted argument is. -/
theorem getLastUpdatedAt_fallback_of_absent (tables : List TableDescriptor)
    (fallbackValue : JSValue)
    (h : ∃ d ∈ tables, d.updated_at = UpdatedAt.absent ∨ d.updated_at = UpdatedAt.undefined) :
    (fallbackValue ≠ JSValue.undefined →
        (QueryMetadata.new tables).getLastUpdatedAt fallbackValue = fallbackValue) ∧
      (QueryMetadata.new tables).getLastUpdatedAt JSValue.undefined =
        JSValue.number (JSNumber.int 0) := by
  obtain ⟨d, hd, hua⟩ := h
  have hne : tables ≠ [] := List.ne_nil_of_mem hd
  have hnan : mathMax (tables.map fun d => d.updated_at.toNumber) = JSNumber.nan := by
    apply mathMax_of_mem_nan
    refine List.mem_map.mpr ⟨d, hd, ?_⟩
    rcases hua with e | e <;> simp [e, UpdatedAt.toNumber]
  have hres : ∀ v : JSValue, (QueryMetadata.new tables).getLastUpdatedAt v =
      JSValue.withDefault v (JSValue.number (JSNumber.int 0)) := by
    intro v
    rw [QueryMetadata.getLastUpdatedAt_eq _ _ hne, hnan]
    simp [JSValue.or, JSValue.toBoolean]
  refine ⟨?_, ?_⟩
  · intro hpassed
    rw [hres]
    cases fallbackValue <;> first | rfl | exact absurd rfl hpassed
  · rw [hres]; rfl

theorem getLastUpdatedAt_fallback_of_absent_witness :
    (∃ d ∈ [(⟨"db1", "public", "tableone", UpdatedAt.date 1234567891⟩ : TableDescriptor),
        ⟨"db1", "public", "tabletwo", UpdatedAt.absent⟩],
        d.updated_at = UpdatedAt.absent ∨ d.updated_at = UpdatedAt.undefined) ∧
      JSValue.string "FALLBACK" ≠ JSValue.undefined ∧
      (QueryMetadata.new
        [⟨"db1", "public", "tableone", UpdatedAt.date 1234567891⟩,
         ⟨"db1", "public", "tabletwo", UpdatedAt.absent⟩]).getLastUpdatedAt
          (JSValue.string "FALLBACK") = JSValue.string "FALLBACK" :=
  ⟨⟨⟨"db1", "public", "tabletwo", UpdatedAt.absent⟩, by simp, Or.inl rfl⟩, by decide,
    (getLastUpdatedAt_fallback_of_absent
      [⟨"db1", "public", "tableone", UpdatedAt.date 1234567891⟩,
       ⟨"db1", "public", "tabletwo", UpdatedAt.absent⟩] (JSValue.string "FALLBACK")
      ⟨⟨"db1", "public", "tabletwo", UpdatedAt.absent⟩, by simp, Or.inl rfl⟩).1 (by decide)⟩

/-! ## The methods leave the instance as it is -/

theorem World.getElem?_extend (heap extra : List JSArray) (ref : Nat) (a : JSArray)
    (h : heap[ref]? = some a) : (heap ++ extra)[ref]? = some a := by
  have hlt : ref < heap.length := by
    by_contra hge
    rw [List.getElem?_eq_none (Nat.le_of_not_lt hge)] at h
    exact Option.noConfusion h
  rw [List.getElem?_append_left hlt, h]

theorem World.Stores.readTables {w : World} {stored : List TableDescriptor}
    (h : w.Stores stored) : w.readTables w.self.tables = stored := by
  unfold World.readTables
  rw [h]

theorem World.readTables_alloc (w : World) (l : List TableDescriptor) :
    (w.alloc (JSArray.ofTables l)).2.readTables (w.alloc (JSArray.ofTables l)).1 = l := by
  simp [World.alloc, World.readTables]

theorem World.getTables_spec (w : World) (stored : List TableDescriptor) (h : w.Stores stored)
    (s1 s2 : JSValue) :
    (w.getTables s1 s2).2.self = w.self ∧
      (∃ extra, (w.getTables s1 s2).2.heap = w.heap ++ extra) ∧
      (w.getTables s1 s2).2.readTables (w.getTables s1 s2).1 =
        (QueryMetadata.mk w.self.key_namespace stored).getTables s1 s2 := by
  have hr := h.readTables
  have hst : w.heap[w.self.tables]? = some (JSArray.ofTables stored) := h
  unfold World.getTables QueryMetadata.getTables
  simp only [JSValue.toBoolean_or_false]
  cases s1.toBoolean <;> cases s2.toBoolean
  · simp [hr]
  · simp [hr, World.alloc, World.readTables, hst]
  · simp [hr, World.alloc, World.readTables, hst]
  · refine ⟨by simp [World.alloc], ⟨_, by simp [World.alloc, List.append_assoc]; rfl⟩, ?_⟩
    simp only [if_true, hr, World.readTables_alloc]

theorem World.getKey_spec (w : World) (stored : List TableDescriptor) (h : w.Stores stored)
    (skip : JSValue) :
    (w.getKey skip).2.self = w.self ∧
      (∃ extra, (w.getKey skip).2.heap = w.heap ++ extra) ∧
      (w.getKey skip).2.readStrings (w.getKey skip).1 =
        (QueryMetadata.mk w.self.key_namespace stored).getKey skip := by
  obtain ⟨hself, ⟨extra, hheap⟩, hread⟩ := w.getTables_spec stored h skip JSValue.undefined
  unfold World.getKey QueryMetadata.getKey
  dsimp only
  rw [hread]
  generalize (w.getTables skip JSValue.undefined).2 = w1 at hself hheap
  generalize (QueryMetadata.mk w.self.key_namespace stored).getTables skip JSValue.undefined = ts
  have hns : w1.self.key_namespace = w.self.key_namespace := by rw [hself]
  rw [hns]
  generalize (ts.map fun table => w.self.key_namespace ++ ":" ++
      shortHashKey (table.dbname ++ ":" ++ table.schema_name ++ "." ++ table.table_name)) = ks
  have hfresh : (w1.heap ++ [JSArray.ofStrings ks])[w1.heap.length]? =
      some (JSArray.ofStrings ks) := by
    rw [List.getElem?_append_right (Nat.le_refl _)]
    simp
  have hset : (w1.heap ++ [JSArray.ofStrings ks]).set w1.heap.length
      (JSArray.ofStrings (jsSort ks)) = w1.heap ++ [JSArray.ofStrings (jsSort ks)] := by
    rw [List.set_append_right _ _ (Nat.le_refl _)]
    simp
  have hsort : (w1.alloc (JSArray.ofStrings ks)).2.sortInPlace (w1.alloc (JSArray.ofStrings ks)).1 =
      ⟨w1.heap ++ [JSArray.ofStrings (jsSort ks)], w1.self⟩ := by
    simp only [World.alloc, World.sortInPlace, hfresh, hset]
  simp only [hsort]
  refine ⟨hself, ⟨extra ++ [JSArray.ofStrings (jsSort ks)], by rw [hheap, List.append_assoc]⟩, ?_⟩
  simp only [World.alloc, World.readStrings]
  rw [List.getElem?_append_right (Nat.le_refl _)]
  simp

theorem World.getCacheChannel_spec (w : World) (stored : List TableDescriptor)
    (h : w.Stores stored) (skip : JSValue) :
    (w.getCacheChannel skip).2.self = w.self ∧
      (∃ extra, (w.getCacheChannel skip).2.heap = w.heap ++ extra) ∧
      (w.getCacheChannel skip).1 =
        (QueryMetadata.mk w.self.key_namespace stored).getCacheChannel skip := by
  obtain ⟨hself, hheap, hread⟩ := w.getTables_spec stored h skip JSValue.undefined
  unfold World.getCacheChannel QueryMetadata.getCacheChannel
  dsimp only
  rw [hread]
  exact ⟨hself, hheap, rfl⟩

theorem World.getLastUpdatedAt_spec (w : World) (stored : List TableDescriptor)
    (h : w.Stores stored) (fallbackValue : JSValue) :
    (w.getLastUpdatedAt fallbackValue).2.self = w.self ∧
      (∃ extra, (w.getLastUpdatedAt fallbackValue).2.heap = w.heap ++ extra) ∧
      (w.getLastUpdatedAt fallbackValue).1 =
        (QueryMetadata.mk w.self.key_namespace stored).getLastUpdatedAt fallbackValue := by
  have hr := h.readTables
  have hst : w.heap[w.self.tables]? = some (JSArray.ofTables stored) := h
  have hkeep : (w.heap ++ [JSArray.ofUpdatedAt (stored.map fun table => table.updated_at)])[
      w.self.tables]? = some (JSArray.ofTables stored) := World.getElem?_extend _ _ _ _ hst
  have hfresh : (w.heap ++ [JSArray.ofUpdatedAt (stored.map fun table => table.updated_at)])[
      w.heap.length]? = some (JSArray.ofUpdatedAt (stored.map fun table => table.updated_at)) := by
    rw [List.getElem?_append_right (Nat.le_refl _)]
    simp
  unfold World.getLastUpdatedAt QueryMetadata.getLastUpdatedAt
  dsimp only
  rw [hr]
  refine ⟨rfl, ⟨_, rfl⟩, ?_⟩
  simp only [World.alloc, World.readTables, World.readUpdatedAt, hkeep, hfresh]

theorem Call.run_spec (c : Call) (w : World) (stored : List TableDescriptor)
    (h : w.Stores stored) :
    (c.run w).2.self = w.self ∧ (∃ extra, (c.run w).2.heap = w.heap ++ extra) ∧
      (c.run w).1 = c.pure ⟨w.self.key_namespace, stored⟩ := by
  cases c with
  | getTables s1 s2 =>
      obtain ⟨h1, h2, h3⟩ := w.getTables_spec stored h s1 s2
      exact ⟨h1, h2, congrArg Observation.tables h3⟩
  | getKey skip =>
      obtain ⟨h1, h2, h3⟩ := w.getKey_spec stored h skip
      exact ⟨h1, h2, congrArg Observation.keys h3⟩
  | getCacheChannel skip =>
      obtain ⟨h1, h2, h3⟩ := w.getCacheChannel_spec stored h skip
      exact ⟨h1, h2, congrArg Observation.channel h3⟩
  | getLastUpdatedAt fallbackValue =>
      obtain ⟨h1, h2, h3⟩ := w.getLastUpdatedAt_spec stored h fallbackValue
      exact ⟨h1, h2, congrArg Observation.lastUpdatedAt h3⟩

theorem Call.run_stores (c : Call) (w : World) (stored : List TableDescriptor)
    (h : w.Stores stored) : (c.run w).2.Stores stored := by
  obtain ⟨hself, ⟨extra, hheap⟩, _⟩ := c.run_spec w stored h
  unfold World.Stores
  rw [hself, hheap]
  exact World.getElem?_extend _ _ _ _ h

theorem World.new_stores (tables : List TableDescriptor) : (World.new tables).Stores tables :=
  rfl

/-- C13: in a memory where the instance stores the sequence `stored`, a call of
`getTables`, `getKey`, `getCacheChannel` or `getLastUpdatedAt` leaves the two fields
of the instance as they are, only adds arrays to the memory (every array that
existed keeps its length, order and elements), so the instance still stores
`stored`, also after the sort inside `getKey`; the result of every call is the one
of the model without memory, and any call made afterwards returns what it would
have returned before. -/
theorem methods_leave_instance_unchanged (w : World) (stored : List TableDescriptor)
    (hstored : w.Stores stored) (first next : Call) :
    (first.run w).2.self = w.self ∧
      (∃ extra, (first.run w).2.heap = w.heap ++ extra) ∧
      (first.run w).2.readTables (first.run w).2.self.tables = stored ∧
      ((Call.getKey JSValue.undefined).run w).2.readTables w.self.tables = stored ∧
      (first.run w).1 = first.pure ⟨w.self.key_namespace, stored⟩ ∧
      (next.run (first.run w).2).1 = (next.run w).1 ∧
      (first.run (first.run w).2).1 = (first.run w).1 := by
  obtain ⟨hself, hheap, hobs⟩ := first.run_spec w stored hstored
  have hst1 := first.run_stores w stored hstored
  have hrepeat : ∀ c : Call, (c.run (first.run w).2).1 = (c.run w).1 := by
    intro c
    rw [(c.run_spec _ stored hst1).2.2, (c.run_spec w stored hstored).2.2, hself]
  refine ⟨hself, hheap, hst1.readTables, ?_, hobs, hrepeat next, hrepeat first⟩
  have hk := (Call.getKey JSValue.undefined).run_stores w stored hstored
  have hks := ((Call.getKey JSValue.undefined).run_spec w stored hstored).1
  rw [← hks]
  exact hk.readTables

theorem methods_leave_instance_unchanged_witness :
    (World.new
        [⟨"db1", "public", "tabletwo", UpdatedAt.absent⟩,
         ⟨"db1", "public", "tableone", UpdatedAt.absent⟩]).Stores
        [⟨"db1", "public", "tabletwo", UpdatedAt.absent⟩,
         ⟨"db1", "public", "tableone", UpdatedAt.absent⟩] ∧
      ((Call.getKey JSValue.undefined).run (World.new
        [⟨"db1", "public", "tabletwo", UpdatedAt.absent⟩,
         ⟨"db1", "public", "tableone", UpdatedAt.absent⟩])).2.readTables 0 =
        [⟨"db1", "public", "tabletwo", UpdatedAt.absent⟩,
         ⟨"db1", "public", "tableone", UpdatedAt.absent⟩] ∧
      ((Call.getKey JSValue.undefined).run (World.new
        [⟨"db1", "public", "tabletwo", UpdatedAt.absent⟩,
         ⟨"db1", "public", "tableone", UpdatedAt.absent⟩])).1 =
        Observation.keys ["t:8ny9He", "t:v5EDFF"] :=
  ⟨rfl,
    (methods_leave_instance_unchanged
      (World.new
        [⟨"db1", "public", "tabletwo", UpdatedAt.absent⟩,
         ⟨"db1", "public", "tableone", UpdatedAt.absent⟩])
      [⟨"db1", "public", "tabletwo", UpdatedAt.absent⟩,
       ⟨"db1", "public", "tableone", UpdatedAt.absent⟩] rfl
      (Call.getKey JSValue.undefined) (Call.getKey JSValue.undefined)).2.2.2.1,
    by decide!⟩

/-! ## The scan of the splitter -/

namespace Splitter

theorem length_drop_lt (cs : List Char) (c : Char) (k : Nat) :
    (cs.drop k).length < (c :: cs).length := by
  simp only [List.length_drop, List.length_cons]
  omega

/-- Two step bounds above the length of the input give the same result. -/
theorem scan_fuel : ∀ (f1 f2 : Nat) (st : SplitState) (buffer : List Char) (out : List String)
    (rest : List Char), rest.length < f1 → rest.length < f2 →
    scan f1 st buffer out rest = scan f2 st buffer out rest
  | 0, _, _, _, _, _, h, _ => absurd h (Nat.not_lt_zero _)
  | _ + 1, 0, _, _, _, _, _, h => absurd h (Nat.not_lt_zero _)
  | a + 1, b + 1, st, buffer, out, [], _, _ => by cases st <;> simp [scan]
  | a + 1, b + 1, st, buffer, out, c :: cs, h1, h2 => by
      have ha : cs.length < a := by simp only [List.length_cons] at h1; omega
      have hb : cs.length < b := by simp only [List.length_cons] at h2; omega
      have hda : ∀ k, (cs.drop k).length < a := by
        intro k; simp only [List.length_drop]; omega
      have hdb : ∀ k, (cs.drop k).length < b := by
        intro k; simp only [List.length_drop]; omega
      cases st with
      | normal =>
          simp only [scan]
          split
          · exact scan_fuel a b _ _ _ _ ha hb
          · split
            · exact scan_fuel a b _ _ _ _ ha hb
            · split
              · split
                · exact scan_fuel a b _ _ _ _ (hda _) (hdb _)
                · exact scan_fuel a b _ _ _ _ ha hb
              · split
                · exact scan_fuel a b _ _ _ _ ha hb
                · exact scan_fuel a b _ _ _ _ ha hb
      | inSingleQuote =>
          simp only [scan]
          split
          · split
            · exact scan_fuel a b _ _ _ _ (by simp only [List.length_cons] at ha; omega)
                (by simp only [List.length_cons] at hb; omega)
            · exact scan_fuel a b _ _ _ _ ha hb
          · exact scan_fuel a b _ _ _ _ ha hb
      | inDoubleQuote =>
          simp only [scan]
          split
          · split
            · exact scan_fuel a b _ _ _ _ (by simp only [List.length_cons] at ha; omega)
                (by simp only [List.length_cons] at hb; omega)
            · exact scan_fuel a b _ _ _ _ ha hb
          · exact scan_fuel a b _ _ _ _ ha hb
      | inDollarQuote delimiter =>
          simp only [scan]
          split
          · exact scan_fuel a b _ _ _ _ (hda _) (hdb _)
          · exact scan_fuel a b _ _ _ _ ha hb

/-- A step bound above the length of the input is enough for a result. -/
theorem scan_isSome : ∀ (fuel : Nat) (st : SplitState) (buffer : List Char) (out : List String)
    (rest : List Char), rest.length < fuel → ∃ stmts, scan fuel st buffer out rest = some stmts
  | 0, _, _, _, _, h => absurd h (Nat.not_lt_zero _)
  | a + 1, st, buffer, out, [], _ => ⟨emit out buffer, by cases st <;> simp [scan]⟩
  | a + 1, st, buffer, out, c :: cs, h1 => by
      have ha : cs.length < a := by simp only [List.length_cons] at h1; omega
      have hda : ∀ k, (cs.drop k).length < a := by
        intro k; simp only [List.length_drop]; omega
      cases st with
      | normal =>
          simp only [scan]
          split
          · exact scan_isSome a _ _ _ _ ha
          · split
            · exact scan_isSome a _ _ _ _ ha
            · split
              · split
                · exact scan_isSome a _ _ _ _ (hda _)
                · exact scan_isSome a _ _ _ _ ha
              · split
                · exact scan_isSome a _ _ _ _ ha
                · exact scan_isSome a _ _ _ _ ha
      | inSingleQuote =>
          simp only [scan]
          split
          · split
            · exact scan_isSome a _ _ _ _ (by simp only [List.length_cons] at ha; omega)
            · exact scan_isSome a _ _ _ _ ha
          · exact scan_isSome a _ _ _ _ ha
      | inDoubleQuote =>
          simp only [scan]
          split
          · split
            · exact scan_isSome a _ _ _ _ (by simp only [List.length_cons] at ha; omega)
            · exact scan_isSome a _ _ _ _ ha
          · exact scan_isSome a _ _ _ _ ha
      | inDollarQuote delimiter =>
          simp only [scan]
          split
          · exact scan_isSome a _ _ _ _ (hda _)
          · exact scan_isSome a _ _ _ _ ha

theorem emit_eq (out : List String) (buffer : List Char) :
    emit out buffer = out ++ statementsOf [buffer] := by
  unfold emit statementsOf
  by_cases h : (trim buffer).isEmpty = true <;> simp [h]

theorem statementsOf_cons (p : List Char) (ps : List (List Char)) :
    statementsOf (p :: ps) = statementsOf [p] ++ statementsOf ps := by
  unfold statementsOf
  by_cases h : (trim p).isEmpty = true <;> simp [h]

theorem cutAtSemicolons_ne_nil : ∀ cs : List Char, cutAtSemicolons cs ≠ []
  | [] => by simp [cutAtSemicolons]
  | c :: cs => by
      unfold cutAtSemicolons
      split
      · simp
      · split <;> simp

/-- On a text without quote and dollar the scan in the state `Normal` cuts at the
semicolons. -/
theorem scan_plain : ∀ (rest buffer : List Char) (out : List String) (fuel : Nat),
    (∀ c ∈ rest, c ≠ '\'' ∧ c ≠ '"' ∧ c ≠ '$') → rest.length < fuel →
    scan fuel SplitState.normal buffer out rest =
      some (out ++ statementsOf (prependTo buffer (cutAtSemicolons rest)))
  | _, _, _, 0, _, h => absurd h (Nat.not_lt_zero _)
  | [], buffer, out, fuel + 1, _, _ => by
      simp [scan, emit_eq, cutAtSemicolons, prependTo]
  | c :: cs, buffer, out, fuel + 1, hplain, hfuel => by
      have hc := hplain c (List.mem_cons_self _ _)
      have hcs : ∀ x ∈ cs, x ≠ '\'' ∧ x ≠ '"' ∧ x ≠ '$' :=
        fun x hx => hplain x (List.mem_cons_of_mem _ hx)
      have hlen : cs.length < fuel := by simp only [List.length_cons] at hfuel; omega
      simp only [scan, hc.1, hc.2.1, hc.2.2, if_false]
      by_cases hsemi : c = ';'
      · simp only [hsemi, if_true]
        rw [scan_plain cs [] _ fuel hcs hlen, emit_eq]
        simp only [cutAtSemicolons, if_true, prependTo, List.append_nil]
        cases hcut : cutAtSemicolons cs with
        | nil => exact absurd hcut (cutAtSemicolons_ne_nil cs)
        | cons p ps =>
            rw [statementsOf_cons buffer (p :: ps)]
            simp [prependTo, List.append_assoc]
      · simp only [hsemi, if_false]
        rw [scan_plain cs _ _ fuel hcs hlen]
        simp only [cutAtSemicolons, hsemi, if_false]
        cases hcut : cutAtSemicolons cs with
        | nil => exact absurd hcut (cutAtSemicolons_ne_nil cs)
        | cons p ps => simp [prependTo, List.append_assoc]

/-- C14: on every string without single quote, double quote and dollar, the
splitter returns the pieces between the `;` characters, trimmed, without the empty
ones, in order; the two texts of the tests give the one statement
`SELECT * FROM geometry_columns`, and a line break inside a piece stays. -/
theorem split_without_quotes (text : String)
    (hplain : ∀ c ∈ text.data, c ≠ '\'' ∧ c ≠ '"' ∧ c ≠ '$') :
    split text = some (splitReference text) ∧
      split "SELECT * FROM geometry_columns" = some ["SELECT * FROM geometry_columns"] ∧
      split ";;;;SELECT * FROM geometry_columns" = some ["SELECT * FROM geometry_columns"] ∧
      split "\nSELECT\n1 ; SELECT\n2\n" = some ["SELECT\n1", "SELECT\n2"] := by
  refine ⟨?_, by decide!, by decide!, by decide!⟩
  unfold split splitReference
  rw [scan_plain text.data [] [] _ hplain (Nat.lt_succ_self _)]
  cases hcut : cutAtSemicolons text.data with
  | nil => exact absurd hcut (cutAtSemicolons_ne_nil _)
  | cons p ps => simp [prependTo]

theorem split_without_quotes_witness :
    (∀ c ∈ "\nSELECT * FROM geometry_columns;\nSELECT 1;\nSELECT 2 = 3;\n".data,
        c ≠ '\'' ∧ c ≠ '"' ∧ c ≠ '$') ∧
      split "\nSELECT * FROM geometry_columns;\nSELECT 1;\nSELECT 2 = 3;\n" =
        some (splitReference "\nSELECT * FROM geometry_columns;\nSELECT 1;\nSELECT 2 = 3;\n") ∧
      splitReference "\nSELECT * FROM geometry_columns;\nSELECT 1;\nSELECT 2 = 3;\n" =
        ["SELECT * FROM geometry_columns", "SELECT 1", "SELECT 2 = 3"] :=
  ⟨by decide,
    (split_without_quotes "\nSELECT * FROM geometry_columns;\nSELECT 1;\nSELECT 2 = 3;\n"
      (by decide)).1,
    by decide!⟩

/-- C16: for every text the splitter returns a sequence of statements, and so does
the scan from every state once its step bound exceeds the length of what is left to
read; the text of the test on illegal SQL, with its dollar quote left open, gives
one statement, and so does a text with a single quote left open. -/
theorem split_total (text : String) :
    (∃ statements, split text = some statements) ∧
      (∀ (fuel : Nat) (st : SplitState) (buffer : List Char) (out : List String)
          (rest : List Char), rest.length < fuel →
        ∃ statements, scan fuel st buffer out rest = some statements) ∧
      split "\n\n    /a\n    $b$\n    $c$d\n    ;\n" =
        some ["/a\n    $b$\n    $c$d\n    ;"] ∧
      split "SELECT 'abc ; SELECT 2" = some ["SELECT 'abc ; SELECT 2"] :=
  ⟨scan_isSome _ _ _ _ _ (Nat.lt_succ_self _), scan_isSome, by decide!, by decide!⟩

theorem split_total_witness :
    ['a', ';', '\''].length < 4 ∧
      ∃ statements, scan 4 SplitState.inSingleQuote [] [] ['a', ';', '\''] = some statements :=
  ⟨by decide, (split_total "").2.1 4 SplitState.inSingleQuote [] [] ['a', ';', '\''] (by decide)⟩

end Splitter

namespace Splitter

theorem prependTo_prependTo (a b : List Char) (ps : List (List Char)) :
    prependTo a (prependTo b ps) = prependTo (a ++ b) ps := by
  cases ps <;> simp [prependTo, List.append_assoc]

theorem dollarOpener_tag (tag more : List Char) (h : ∀ c ∈ tag, (c != '$') = true) :
    dollarOpener (tag ++ '$' :: more) = some ('$' :: (tag ++ ['$'])) := by
  unfold dollarOpener
  rw [List.dropWhile_append_of_pos h, List.takeWhile_append_of_pos h]
  simp [List.dropWhile, List.takeWhile]

theorem scan_singleQuoted : ∀ (body : List QuotedChar) (buffer : List Char) (out : List String)
    (rest : List Char) (f1 f2 : Nat),
    (∀ q ∈ body, q ≠ QuotedChar.char '\'') → rest.head? ≠ some '\'' →
    (body.flatMap (QuotedChar.render '\'') ++ '\'' :: rest).length < f1 → rest.length < f2 →
    scan f1 SplitState.inSingleQuote buffer out
        (body.flatMap (QuotedChar.render '\'') ++ '\'' :: rest) =
      scan f2 SplitState.normal
        (buffer ++ (body.flatMap (QuotedChar.render '\'') ++ ['\''])) out rest
  | _, _, _, _, 0, _, _, _, h, _ => absurd h (Nat.not_lt_zero _)
  | [], buffer, out, rest, a + 1, f2, _, hrest, h1, h2 => by
      have ha : rest.length < a := by
        simp only [List.flatMap_nil, List.nil_append, List.length_cons] at h1; omega
      simp only [List.flatMap_nil, List.nil_append, scan, if_true]
      cases rest with
      | nil => exact scan_fuel _ _ _ _ _ _ ha h2
      | cons r rs =>
          have hr : r ≠ '\'' := by
            intro e; apply hrest; simp [e]
          split
          · rename_i heq
            simp only [List.cons.injEq] at heq
            exact absurd heq.1 hr
          · exact scan_fuel _ _ _ _ _ _ ha h2
  | QuotedChar.char c :: body, buffer, out, rest, a + 1, f2, hbody, hrest, h1, h2 => by
      have hc : c ≠ '\'' := by
        intro e
        exact hbody (QuotedChar.char c) (List.mem_cons_self _ _) (by rw [e])
      have hb : ∀ q ∈ body, q ≠ QuotedChar.char '\'' :=
        fun q hq => hbody q (List.mem_cons_of_mem _ hq)
      have e : (QuotedChar.char c :: body).flatMap (QuotedChar.render '\'') =
          c :: body.flatMap (QuotedChar.render '\'') := rfl
      rw [e, List.cons_append] at h1 ⊢
      have ha : (body.flatMap (QuotedChar.render '\'') ++ '\'' :: rest).length < a := by
        simp only [List.length_cons] at h1
        omega
      simp only [scan, hc, if_false]
      rw [scan_singleQuoted body _ out rest a f2 hb hrest ha h2]
      simp [List.append_assoc]
  | QuotedChar.doubledQuote :: body, buffer, out, rest, a + 1, f2, hbody, hrest, h1, h2 => by
      have hb : ∀ q ∈ body, q ≠ QuotedChar.char '\'' :=
        fun q hq => hbody q (List.mem_cons_of_mem _ hq)
      have e : (QuotedChar.doubledQuote :: body).flatMap (QuotedChar.render '\'') =
          '\'' :: '\'' :: body.flatMap (QuotedChar.render '\'') := rfl
      rw [e, List.cons_append, List.cons_append] at h1 ⊢
      have ha : (body.flatMap (QuotedChar.render '\'') ++ '\'' :: rest).length < a := by
        simp only [List.length_cons] at h1
        omega
      simp only [scan, if_true]
      rw [scan_singleQuoted body _ out rest a f2 hb hrest ha h2]
      simp [List.append_assoc]

theorem scan_doubleQuoted : ∀ (body : List QuotedChar) (buffer : List Char) (out : List String)
    (rest : List Char) (f1 f2 : Nat),
    (∀ q ∈ body, q ≠ QuotedChar.char '"') → rest.head? ≠ some '"' →
    (body.flatMap (QuotedChar.render '"') ++ '"' :: rest).length < f1 → rest.length < f2 →
    scan f1 SplitState.inDoubleQuote buffer out
        (body.flatMap (QuotedChar.render '"') ++ '"' :: rest) =
      scan f2 SplitState.normal
        (buffer ++ (body.flatMap (QuotedChar.render '"') ++ ['"'])) out rest
  | _, _, _, _, 0, _, _, _, h, _ => absurd h (Nat.not_lt_zero _)
  | [], buffer, out, rest, a + 1, f2, _, hrest, h1, h2 => by
      have ha : rest.length < a := by
        simp only [List.flatMap_nil, List.nil_append, List.length_cons] at h1; omega
      simp only [List.flatMap_nil, List.nil_append, scan, if_true]
      cases rest with
      | nil => exact scan_fuel _ _ _ _ _ _ ha h2
      | cons r rs =>
          have hr : r ≠ '"' := by
            intro e; apply hrest; simp [e]
          split
          · rename_i heq
            simp only [List.cons.injEq] at heq
            exact absurd heq.1 hr
          · exact scan_fuel _ _ _ _ _ _ ha h2
  | QuotedChar.char c :: body, buffer, out, rest, a + 1, f2, hbody, hrest, h1, h2 => by
      have hc : c ≠ '"' := by
        intro e
        exact hbody (QuotedChar.char c) (List.mem_cons_self _ _) (by rw [e])
      have hb : ∀ q ∈ body, q ≠ QuotedChar.char '"' :=
        fun q hq => hbody q (List.mem_cons_of_mem _ hq)
      have e : (QuotedChar.char c :: body).flatMap (QuotedChar.render '"') =
          c :: body.flatMap (QuotedChar.render '"') := rfl
      rw [e, List.cons_append] at h1 ⊢
      have ha : (body.flatMap (QuotedChar.render '"') ++ '"' :: rest).length < a := by
        simp only [List.length_cons] at h1
        omega
      simp only [scan, hc, if_false]
      rw [scan_doubleQuoted body _ out rest a f2 hb hrest ha h2]
      simp [List.append_assoc]
  | QuotedChar.doubledQuote :: body, buffer, out, rest, a + 1, f2, hbody, hrest, h1, h2 => by
      have hb : ∀ q ∈ body, q ≠ QuotedChar.char '"' :=
        fun q hq => hbody q (List.mem_cons_of_mem _ hq)
      have e : (QuotedChar.doubledQuote :: body).flatMap (QuotedChar.render '"') =
          '"' :: '"' :: body.flatMap (QuotedChar.render '"') := rfl
      rw [e, List.cons_append, List.cons_append] at h1 ⊢
      have ha : (body.flatMap (QuotedChar.render '"') ++ '"' :: rest).length < a := by
        simp only [List.length_cons] at h1
        omega
      simp only [scan, if_true]
      rw [scan_doubleQuoted body _ out rest a f2 hb hrest ha h2]
      simp [List.append_assoc]

end Splitter

namespace Splitter

theorem scan_dollarQuoted (d0 : Char) (d1 : List Char) : ∀ (body buffer : List Char)
    (out : List String) (rest : List Char) (f1 f2 : Nat),
    noEarlyClose (d0 :: d1) body = true →
    (body ++ d0 :: (d1 ++ rest)).length < f1 → rest.length < f2 →
    scan f1 (SplitState.inDollarQuote (d0 :: d1)) buffer out (body ++ d0 :: (d1 ++ rest)) =
      scan f2 SplitState.normal (buffer ++ (body ++ d0 :: d1)) out rest
  | _, _, _, _, 0, _, _, h, _ => absurd h (Nat.not_lt_zero _)
  | [], buffer, out, rest, a + 1, f2, _, h1, h2 => by
      have hpre : (d0 :: d1).isPrefixOf (d0 :: (d1 ++ rest)) = true := by
        rw [List.isPrefixOf_iff_prefix]
        exact ⟨rest, rfl⟩
      have hdrop : (d1 ++ rest).drop ((d0 :: d1).length - 1) = rest := by
        simp
      have ha : rest.length < a := by
        simp only [List.nil_append, List.length_cons, List.length_append] at h1
        omega
      rw [List.nil_append, List.nil_append]
      generalize d1 ++ rest = tail at hpre hdrop
      simp only [scan, hpre, if_true, hdrop]
      exact scan_fuel _ _ _ _ _ _ ha h2
  | c :: body, buffer, out, rest, a + 1, f2, hclose, h1, h2 => by
      simp only [noEarlyClose, Bool.and_eq_true, Bool.not_eq_true'] at hclose
      have hno : (d0 :: d1).isPrefixOf (c :: (body ++ d0 :: (d1 ++ rest))) = false := by
        cases hp : (d0 :: d1).isPrefixOf (c :: (body ++ d0 :: (d1 ++ rest)))
        · rfl
        · rw [List.isPrefixOf_iff_prefix] at hp
          have hp2 : (c :: (body ++ d0 :: d1)) <+: (c :: (body ++ d0 :: (d1 ++ rest))) :=
            ⟨rest, by simp⟩
          have hle : (d0 :: d1).length ≤ (c :: (body ++ d0 :: d1)).length := by
            simp only [List.length_cons, List.length_append]
            omega
          have := List.prefix_of_prefix_length_le hp hp2 hle
          rw [← List.isPrefixOf_iff_prefix] at this
          rw [this] at hclose
          exact absurd hclose.1 (by simp)
      have ha : (body ++ d0 :: (d1 ++ rest)).length < a := by
        simp only [List.cons_append, List.length_cons] at h1
        omega
      have ih := scan_dollarQuoted d0 d1 body (buffer ++ [c]) out rest a f2 hclose.2 ha h2
      rw [List.cons_append]
      generalize body ++ d0 :: (d1 ++ rest) = tail at hno ih
      simp only [scan, hno, Bool.false_eq_true, if_false]
      rw [ih]
      simp [List.append_assoc]

theorem head_renderTokens (ts : List Token) (q : Char)
    (hq : q = '\'' ∨ q = '"')
    (hclash : (q = '\'' → ∀ body rest, ts ≠ Token.singleQuoted body :: rest) ∧
      (q = '"' → ∀ body rest, ts ≠ Token.doubleQuoted body :: rest))
    (hts : wellTerminated ts = true) : (renderTokens ts).head? ≠ some q := by
  cases ts with
  | nil => simp [renderTokens]
  | cons u us =>
      simp only [wellTerminated, Bool.and_eq_true] at hts
      have hu := hts.1.1
      cases u with
      | plain c =>
          simp only [Token.wellFormed, Bool.and_eq_true, bne_iff_ne, ne_eq] at hu
          simp only [renderTokens, List.flatMap_cons, Token.render, List.singleton_append,
            List.head?_cons, ne_eq, Option.some.injEq]
          rcases hq with e | e <;> rw [e]
          · exact hu.1.1.1
          · exact hu.1.1.2
      | semicolon =>
          simp only [renderTokens, List.flatMap_cons, Token.render, List.singleton_append,
            List.head?_cons, ne_eq, Option.some.injEq]
          rcases hq with e | e <;> rw [e] <;> decide
      | singleQuoted body =>
          simp only [renderTokens, List.flatMap_cons, Token.render, List.cons_append,
            List.head?_cons, ne_eq, Option.some.injEq]
          rcases hq with e | e
          · exact absurd rfl (hclash.1 e body us)
          · rw [e]; decide
      | doubleQuoted body =>
          simp only [renderTokens, List.flatMap_cons, Token.render, List.cons_append,
            List.head?_cons, ne_eq, Option.some.injEq]
          rcases hq with e | e
          · rw [e]; decide
          · exact absurd rfl (hclash.2 e body us)
      | dollarQuoted tag body =>
          simp only [renderTokens, List.flatMap_cons, Token.render, List.cons_append,
            List.head?_cons, ne_eq, Option.some.injEq]
          rcases hq with e | e <;> rw [e] <;> decide

end Splitter

namespace Splitter

theorem piecesOf_ne_nil : ∀ ts : List Token, piecesOf ts ≠ []
  | [] => by simp [piecesOf]
  | Token.semicolon :: ts => by simp [piecesOf]
  | Token.plain c :: ts => by
      cases h : piecesOf ts <;> simp [piecesOf, prependTo, h]
  | Token.singleQuoted b :: ts => by
      cases h : piecesOf ts <;> simp [piecesOf, prependTo, h]
  | Token.doubleQuoted b :: ts => by
      cases h : piecesOf ts <;> simp [piecesOf, prependTo, h]
  | Token.dollarQuoted t b :: ts => by
      cases h : piecesOf ts <;> simp [piecesOf, prependTo, h]

theorem prependTo_nil (ps : List (List Char)) (h : ps ≠ []) : prependTo [] ps = ps := by
  cases ps with
  | nil => exact absurd rfl h
  | cons p ps => simp [prependTo]

/-- On a text made of well-terminated quoted regions the scan in the state `Normal`
cuts at the top-level semicolons only. -/
theorem scan_tokens : ∀ (tokens : List Token) (buffer : List Char) (out : List String)
    (fuel : Nat), wellTerminated tokens = true → (renderTokens tokens).length < fuel →
    scan fuel SplitState.normal buffer out (renderTokens tokens) =
      some (out ++ statementsOf (prependTo buffer (piecesOf tokens)))
  | _, _, _, 0, _, h => absurd h (Nat.not_lt_zero _)
  | [], buffer, out, a + 1, _, _ => by
      simp [renderTokens, scan, emit_eq, piecesOf, prependTo]
  | Token.plain c :: ts, buffer, out, a + 1, hw, hf => by
      simp only [wellTerminated, Bool.and_eq_true] at hw
      have hc := hw.1.1
      simp only [Token.wellFormed, Bool.and_eq_true, bne_iff_ne, ne_eq] at hc
      have e : renderTokens (Token.plain c :: ts) = c :: renderTokens ts := rfl
      rw [e] at hf ⊢
      have ha : (renderTokens ts).length < a := by
        simp only [List.length_cons] at hf; omega
      simp only [scan, hc.1.1.1, hc.1.1.2, hc.1.2, hc.2, if_false]
      rw [scan_tokens ts _ out a hw.2 ha]
      simp only [piecesOf, prependTo_prependTo, Token.render]
  | Token.semicolon :: ts, buffer, out, a + 1, hw, hf => by
      simp only [wellTerminated, Bool.and_eq_true] at hw
      have e : renderTokens (Token.semicolon :: ts) = ';' :: renderTokens ts := rfl
      rw [e] at hf ⊢
      have ha : (renderTokens ts).length < a := by
        simp only [List.length_cons] at hf; omega
      have h1 : ¬ ((';' : Char) = '\'') := by decide
      have h2 : ¬ ((';' : Char) = '"') := by decide
      have h3 : ¬ ((';' : Char) = '$') := by decide
      simp only [scan, h1, h2, h3, if_false, if_true]
      rw [scan_tokens ts _ _ a hw.2 ha, emit_eq, prependTo_nil _ (piecesOf_ne_nil ts)]
      simp only [piecesOf, prependTo, List.append_nil]
      rw [statementsOf_cons buffer (piecesOf ts), List.append_assoc]
  | Token.singleQuoted body :: ts, buffer, out, a + 1, hw, hf => by
      simp only [wellTerminated, Bool.and_eq_true, Bool.not_eq_true'] at hw
      have hbody : ∀ q ∈ body, q ≠ QuotedChar.char '\'' := by
        have := hw.1.1
        simp only [Token.wellFormed, List.all_eq_true, bne_iff_ne, ne_eq] at this
        exact this
      have hhead : (renderTokens ts).head? ≠ some '\'' := by
        apply head_renderTokens ts '\'' (Or.inl rfl) _ hw.2
        refine ⟨fun _ b r hts => ?_, fun hq => absurd hq (by decide)⟩
        have := hw.1.2
        rw [hts] at this
        simp [Token.clashes] at this
      have e : renderTokens (Token.singleQuoted body :: ts) =
          '\'' :: (body.flatMap (QuotedChar.render '\'') ++ '\'' :: renderTokens ts) := by
        simp [renderTokens, Token.render, List.append_assoc]
      rw [e] at hf ⊢
      have ha : (body.flatMap (QuotedChar.render '\'') ++ '\'' :: renderTokens ts).length < a := by
        simp only [List.length_cons] at hf; omega
      have ha2 : (renderTokens ts).length < a := by
        simp only [List.length_append, List.length_cons] at ha; omega
      simp only [scan, if_true]
      rw [scan_singleQuoted body _ out _ a a hbody hhead ha ha2, scan_tokens ts _ out a hw.2 ha2]
      simp only [piecesOf, prependTo_prependTo, Token.render, List.append_assoc,
        List.singleton_append]
  | Token.doubleQuoted body :: ts, buffer, out, a + 1, hw, hf => by
      simp only [wellTerminated, Bool.and_eq_true, Bool.not_eq_true'] at hw
      have hbody : ∀ q ∈ body, q ≠ QuotedChar.char '"' := by
        have := hw.1.1
        simp only [Token.wellFormed, List.all_eq_true, bne_iff_ne, ne_eq] at this
        exact this
      have hhead : (renderTokens ts).head? ≠ some '"' := by
        apply head_renderTokens ts '"' (Or.inr rfl) _ hw.2
        refine ⟨fun hq => absurd hq (by decide), fun _ b r hts => ?_⟩
        have := hw.1.2
        rw [hts] at this
        simp [Token.clashes] at this
      have e : renderTokens (Token.doubleQuoted body :: ts) =
          '"' :: (body.flatMap (QuotedChar.render '"') ++ '"' :: renderTokens ts) := by
        simp [renderTokens, Token.render, List.append_assoc]
      rw [e] at hf ⊢
      have ha : (body.flatMap (QuotedChar.render '"') ++ '"' :: renderTokens ts).length < a := by
        simp only [List.length_cons] at hf; omega
      have ha2 : (renderTokens ts).length < a := by
        simp only [List.length_append, List.length_cons] at ha; omega
      have h1 : ¬ (('"' : Char) = '\'') := by decide
      simp only [scan, h1, if_false, if_true]
      rw [scan_doubleQuoted body _ out _ a a hbody hhead ha ha2, scan_tokens ts _ out a hw.2 ha2]
      simp only [piecesOf, prependTo_prependTo, Token.render, List.append_assoc,
        List.singleton_append]
  | Token.dollarQuoted tag body :: ts, buffer, out, a + 1, hw, hf => by
      simp only [wellTerminated, Bool.and_eq_true, Bool.not_eq_true'] at hw
      have hwf := hw.1.1
      simp only [Token.wellFormed, Bool.and_eq_true, List.all_eq_true] at hwf
      have e : renderTokens (Token.dollarQuoted tag body :: ts) =
          '$' :: (tag ++ '$' :: (body ++ '$' :: ((tag ++ ['$']) ++ renderTokens ts))) := by
        simp [renderTokens, Token.render, List.append_assoc]
      rw [e] at hf ⊢
      have hopen := dollarOpener_tag tag (body ++ '$' :: ((tag ++ ['$']) ++ renderTokens ts))
        hwf.1
      have hdrop : (tag ++ '$' :: (body ++ '$' :: ((tag ++ ['$']) ++ renderTokens ts))).drop
          (('$' :: (tag ++ ['$'])).length - 1) =
          body ++ '$' :: ((tag ++ ['$']) ++ renderTokens ts) := by
        have hl : ('$' :: (tag ++ ['$'])).length - 1 = (tag ++ ['$']).length := by simp
        have hs : tag ++ '$' :: (body ++ '$' :: ((tag ++ ['$']) ++ renderTokens ts)) =
            (tag ++ ['$']) ++ (body ++ '$' :: ((tag ++ ['$']) ++ renderTokens ts)) := by simp
        rw [hl, hs, List.drop_left]
      have ha : (body ++ '$' :: ((tag ++ ['$']) ++ renderTokens ts)).length < a := by
        simp only [List.length_cons, List.length_append] at hf ⊢; omega
      have ha2 : (renderTokens ts).length < a := by
        simp only [List.length_append, List.length_cons] at ha; omega
      have h1 : ¬ (('$' : Char) = '\'') := by decide
      have h2 : ¬ (('$' : Char) = '"') := by decide
      simp only [scan, h1, h2, if_false, if_true, hopen, hdrop]
      rw [scan_dollarQuoted '$' (tag ++ ['$']) body _ out _ a a hwf.2 ha ha2,
        scan_tokens ts _ out a hw.2 ha2]
      simp only [piecesOf, prependTo_prependTo, Token.render, List.append_assoc,
        List.cons_append, List.nil_append]

end Splitter

namespace Splitter

theorem intercalate_cons_cons (sep p q : List Char) (ps : List (List Char)) :
    sep.intercalate (p :: q :: ps) = p ++ sep ++ sep.intercalate (q :: ps) := by
  simp [List.intercalate, List.intersperse]

theorem intercalate_prependTo (sep r : List Char) : ∀ ps : List (List Char), ps ≠ [] →
    sep.intercalate (prependTo r ps) = r ++ sep.intercalate ps
  | [], h => absurd rfl h
  | [p], _ => by simp [prependTo, List.intercalate, List.intersperse]
  | p :: q :: ps, _ => by
      simp [prependTo, intercalate_cons_cons, List.append_assoc]

/-- Joining the pieces with `;` gives the text back: the pieces are the text cut at
the top-level `;` tokens and nowhere else. -/
theorem intercalate_piecesOf : ∀ tokens : List Token,
    [';'].intercalate (piecesOf tokens) = renderTokens tokens
  | [] => by simp [piecesOf, renderTokens, List.intercalate, List.intersperse]
  | Token.semicolon :: ts => by
      have ih := intercalate_piecesOf ts
      cases h : piecesOf ts with
      | nil => exact absurd h (piecesOf_ne_nil ts)
      | cons p ps =>
          rw [h] at ih
          simp only [piecesOf, h, intercalate_cons_cons, ih]
          rfl
  | Token.plain c :: ts => by
      simp only [piecesOf]
      rw [intercalate_prependTo _ _ _ (piecesOf_ne_nil ts), intercalate_piecesOf ts]
      rfl
  | Token.singleQuoted b :: ts => by
      simp only [piecesOf]
      rw [intercalate_prependTo _ _ _ (piecesOf_ne_nil ts), intercalate_piecesOf ts]
      rfl
  | Token.doubleQuoted b :: ts => by
      simp only [piecesOf]
      rw [intercalate_prependTo _ _ _ (piecesOf_ne_nil ts), intercalate_piecesOf ts]
      rfl
  | Token.dollarQuoted t b :: ts => by
      simp only [piecesOf]
      rw [intercalate_prependTo _ _ _ (piecesOf_ne_nil ts), intercalate_piecesOf ts]
      rfl

theorem length_prependTo (r : List Char) : ∀ ps : List (List Char), ps ≠ [] →
    (prependTo r ps).length = ps.length
  | [], h => absurd rfl h
  | _ :: _, _ => rfl

/-- There is one piece more than there are top-level `;` tokens. -/
theorem length_piecesOf : ∀ tokens : List Token,
    (piecesOf tokens).length = tokens.count Token.semicolon + 1
  | [] => rfl
  | Token.semicolon :: ts => by
      simp [piecesOf, length_piecesOf ts]
  | Token.plain c :: ts => by
      simp only [piecesOf]
      rw [length_prependTo _ _ (piecesOf_ne_nil ts), length_piecesOf ts]
      simp
  | Token.singleQuoted b :: ts => by
      simp only [piecesOf]
      rw [length_prependTo _ _ (piecesOf_ne_nil ts), length_piecesOf ts]
      simp
  | Token.doubleQuoted b :: ts => by
      simp only [piecesOf]
      rw [length_prependTo _ _ (piecesOf_ne_nil ts), length_piecesOf ts]
      simp
  | Token.dollarQuoted t b :: ts => by
      simp only [piecesOf]
      rw [length_prependTo _ _ (piecesOf_ne_nil ts), length_piecesOf ts]
      simp

/-- C15: on every text made of well-terminated quoted regions the splitter returns
the texts between the top-level `;`, trimmed, without the empty ones: a `;` inside
a single-quoted string, a double-quoted identifier or a dollar-quoted body cuts
nothing, a doubled quote stays inside its region, and the quoted text is in its
statement as written (the pieces joined with `;` are the text, and there is one
piece more than top-level `;`). The texts of the tests on quoted commands, quoted inserts and
quoted values give the statements the tests expect. -/
theorem split_quoted_regions (tokens : List Token) (hquoted : wellTerminated tokens = true) :
    split ⟨renderTokens tokens⟩ = some (statementsOf (piecesOf tokens)) ∧
      [';'].intercalate (piecesOf tokens) = renderTokens tokens ∧
      (piecesOf tokens).length = tokens.count Token.semicolon + 1 ∧
      split "\nINSER INTO \"my''\"\"t\" values ('''','\"\"'';;');\nSELECT $qu;oted$ hi $qu;oted$;\n" =
        some ["INSER INTO \"my''\"\"t\" values ('''','\"\"'';;')",
          "SELECT $qu;oted$ hi $qu;oted$"] ∧
      split "\nCREATE table \"my'tab;le\" (\"$\" int);\nSELECT '1','$$', '$hello$', \"$\" FROM \"my'tab;le\";\nCREATE function \"hi'there\" (\"'\" text default '$') returns void as $h$ declare a int; b text; begin b='hi'; return; end; $h$ language 'plpgsql';\nSELECT 5;\n" =
        some ["CREATE table \"my'tab;le\" (\"$\" int)",
          "SELECT '1','$$', '$hello$', \"$\" FROM \"my'tab;le\"",
          "CREATE function \"hi'there\" (\"'\" text default '$') returns void as $h$ declare a int; b text; begin b='hi'; return; end; $h$ language 'plpgsql'",
          "SELECT 5"] ∧
      split "\nSELECT $quoted$ hi\n$quoted$;\n" = some ["SELECT $quoted$ hi\n$quoted$"] := by
  refine ⟨?_, intercalate_piecesOf tokens, length_piecesOf tokens, by decide!, by decide!,
    by decide!⟩
  unfold split
  rw [scan_tokens tokens [] [] _ hquoted (Nat.lt_succ_self _)]
  rw [prependTo_nil _ (piecesOf_ne_nil tokens), List.nil_append]

theorem split_quoted_regions_witness :
    wellTerminated quotedInsertsTokens = true ∧
      (⟨renderTokens quotedInsertsTokens⟩ : String) =
        "\nINSER INTO \"my''\"\"t\" values ('''','\"\"'';;');\nSELECT $qu;oted$ hi $qu;oted$;\n" ∧
      split ⟨renderTokens quotedInsertsTokens⟩ =
        some (statementsOf (piecesOf quotedInsertsTokens)) ∧
      statementsOf (piecesOf quotedInsertsTokens) =
        ["INSER INTO \"my''\"\"t\" values ('''','\"\"'';;')", "SELECT $qu;oted$ hi $qu;oted$"] :=
  ⟨by decide!, by decide!, (split_quoted_regions quotedInsertsTokens (by decide!)).1, by decide!⟩

end Splitter
